import Mathlib

/-!
Verification of the document chunking pipeline and hybrid ranking engine of a
Markdown documentation indexing/search system.

The Python sources are shallowly embedded as executable Lean functions:

* `chunking.py` : `parse_markdown_sections`, `chunk_text`, `process_file`
* `build_index.py` : the near-duplicate `chunk_text` / `process_file`
  (which differ from `chunking.py` in the empty-input guard and in the
  path-separator normalisation)
* `db.py` / `mcp_server.py` : `reciprocal_rank_fusion`, `search_docs`,
  `search_docs_impl`

Python strings are modelled as `List Char` (Python indexes by code point);
whitespace is the ASCII whitespace set that `str.strip`, `str.split` and the
regex class `\s` agree on for the texts in scope.  Numeric scores are modelled
as exact rationals (`ℚ`) where the source uses IEEE floats; the fusion and
orchestration claims are about ranks and list structure, not float rounding.
All functions are total; the one partial spot of the source (Python
`range(0, n, step)` raises for `step = 0`, i.e. `chunk_overlap = chunk_size`,
inside the hard character split) is modelled as returning no pieces, matching
Python for `chunk_overlap > chunk_size` (empty range for a negative step), and
theorems about the hard split carry `chunk_overlap < chunk_size`.
-/

namespace DocsRag

/-- ASCII whitespace, the common core of Python `str.strip` / `str.split`
whitespace and of the regex class `\s` used by the splitting patterns. -/
def isPySpace (c : Char) : Bool :=
  c == ' ' || c == '\t' || c == '\n' || c == '\r' || c == '\x0b' || c == '\x0c'

/-- Python `str.strip()`. -/
def pyStrip (l : List Char) : List Char :=
  ((l.dropWhile isPySpace).reverse.dropWhile isPySpace).reverse

/-- Worker for `pyTokens`, structurally recursive on a fuel bound so that the
kernel can evaluate it (`fuel ≥ length` makes it total on the real input). -/
def pyTokensGo : Nat → List Char → List (List Char)
  | _, [] => []
  | 0, _ :: _ => []
  | fuel + 1, c :: r =>
    if isPySpace c then pyTokensGo fuel r
    else (c :: r.takeWhile (fun d => !isPySpace d)) ::
      pyTokensGo fuel (r.dropWhile (fun d => !isPySpace d))

/-- The maximal non-whitespace runs of a string, in order: the token list
`text.split()` produces in Python.  Used to state content preservation. -/
def pyTokens (l : List Char) : List (List Char) := pyTokensGo l.length l

/-- Worker for `splitParas`, structurally recursive on a fuel bound. -/
def splitParasGo : Nat → List Char → List (List Char)
  | _, [] => [[]]
  | 0, _ :: _ => [[]]
  | fuel + 1, c :: rest =>
    if c == '\n' && rest.head?.any (· == '\n') then
      [] :: splitParasGo fuel (rest.dropWhile (· == '\n'))
    else
      match splitParasGo fuel rest with
      | [] => [[c]]
      | p :: ps => (c :: p) :: ps

/-- `re.split(r"\n\n+", text)`: split at each maximal run of at least two
newlines (the separator runs are consumed; empty pieces are kept, as in
Python `re.split`). -/
def splitParas (l : List Char) : List (List Char) := splitParasGo l.length l

/-- Worker for `splitSents`, structurally recursive on a fuel bound:
split at each maximal whitespace run whose immediately preceding character
is `.`, `!` or `?` (the lookbehind keeps the punctuation in the left piece;
the whole whitespace run is consumed).  `prevPunct` records whether the
character just before the current position is sentence-final punctuation. -/
def splitSentsGo : Nat → Bool → List Char → List (List Char)
  | _, _, [] => [[]]
  | 0, _, _ :: _ => [[]]
  | fuel + 1, prevPunct, c :: rest =>
    if isPySpace c && prevPunct then
      [] :: splitSentsGo fuel false (rest.dropWhile isPySpace)
    else
      match splitSentsGo fuel (c == '.' || c == '!' || c == '?') rest with
      | [] => [[c]]
      | p :: ps => (c :: p) :: ps

/-- `splitSentsGo` at an always-sufficient fuel. -/
def splitSentsFrom (prevPunct : Bool) (l : List Char) : List (List Char) :=
  splitSentsGo l.length prevPunct l

/-- `re.split(r"(?<=[.!?])\s+", para)`. -/
def splitSents (l : List Char) : List (List Char) := splitSentsFrom false l

/-- The fixed-width pieces `sent[i : i + chunk_size]` for
`i in range(0, len(sent), chunk_size - chunk_overlap)` (chunking.py line 70).
For `chunk_overlap = chunk_size` Python raises `ValueError` (zero step);
this total model returns `[]` there, which also matches Python's silent
empty `range` for `chunk_overlap > chunk_size` (negative step). -/
def hardSplit (sent : List Char) (cs co : Nat) : List (List Char) :=
  let step := cs - co
  if step = 0 then []
  else (List.range' 0 ((sent.length + step - 1) / step) step).map
    (fun i => (sent.drop i).take cs)

/-- Provenance of a chunk in the raw (pre-overlap) chunk sequence: a chunk
flushed from the greedy accumulator (`plain`), the first fixed-width piece of
a hard character split (`hardFirst`), or a continuation piece of a hard split
(`hardCont`).  The tag is bookkeeping only; the Python code produces just the
strings. -/
inductive Tag where
  | plain
  | hardFirst
  | hardCont
deriving DecidableEq, Repr

/-- `hardSplit` with the first piece tagged `hardFirst` and the later
(overlapping) pieces tagged `hardCont`. -/
def hardSplitT (sent : List Char) (cs co : Nat) : List (List Char × Tag) :=
  match hardSplit sent cs co with
  | [] => []
  | p :: ps => (p, Tag.hardFirst) :: ps.map (fun q => (q, Tag.hardCont))

/-- One step of the inner sentence loop of `chunk_text`
(chunking.py lines 63-74), on `(chunks, current_chunk)`. -/
def sentStep (cs co : Nat) (st : List (List Char × Tag) × List Char)
    (sent : List Char) : List (List Char × Tag) × List Char :=
  if st.2.length + sent.length + 1 ≤ cs then
    (st.1, if st.2.isEmpty then sent else st.2 ++ ' ' :: sent)
  else
    let chunks := if st.2.isEmpty then st.1 else st.1 ++ [(st.2, Tag.plain)]
    if cs < sent.length then (chunks ++ hardSplitT sent cs co, [])
    else (chunks, sent)

/-- One step of the paragraph loop of `chunk_text`
(chunking.py lines 49-76), on `(chunks, current_chunk)`. -/
def paraStep (cs co : Nat) (st : List (List Char × Tag) × List Char)
    (para0 : List Char) : List (List Char × Tag) × List Char :=
  let para := pyStrip para0
  if para.isEmpty then st
  else if st.2.length + para.length + 2 ≤ cs then
    (st.1, if st.2.isEmpty then para else st.2 ++ '\n' :: '\n' :: para)
  else
    let chunks := if st.2.isEmpty then st.1 else st.1 ++ [(st.2, Tag.plain)]
    if cs < para.length then (splitSents para).foldl (sentStep cs co) (chunks, [])
    else (chunks, para)

/-- The raw (pre-overlap) chunk sequence of `chunk_text` on an input that is
neither empty/whitespace-only nor short enough to be returned whole
(chunking.py lines 45-79), with provenance tags. -/
def chunkTextCore (text : List Char) (cs co : Nat) : List (List Char × Tag) :=
  let st := (splitParas text).foldl (paraStep cs co) ([], [])
  if st.2.isEmpty then st.1 else st.1 ++ [(st.2, Tag.plain)]

/-- `prev_chunk[-chunk_overlap:] if len(prev_chunk) > chunk_overlap else
prev_chunk` (chunking.py lines 86-88). -/
def prevEnd (co : Nat) (prev : List Char) : List Char :=
  if co < prev.length then prev.drop (prev.length - co) else prev

/-- The body of the overlap loop (chunking.py lines 84-89): each chunk is
prefixed with the trailing `chunk_overlap` characters of the *pre-overlap*
predecessor `prev`, joined by a single space. -/
def overlapAux (co : Nat) : List Char → List (List Char × Tag) → List (List Char × Tag)
  | _, [] => []
  | prev, c :: rest => (prevEnd co prev ++ ' ' :: c.1, c.2) :: overlapAux co c.1 rest

/-- The overlap pass (chunking.py lines 82-90): runs only when
`chunk_overlap > 0` and there are at least two chunks; the first chunk is
kept unmodified. -/
def applyOverlap (co : Nat) (l : List (List Char × Tag)) : List (List Char × Tag) :=
  if 0 < co ∧ 1 < l.length then
    match l with
    | [] => []
    | c :: rest => c :: overlapAux co c.1 rest
  else l

/-- `chunk_text` of chunking.py (lines 37-92), with provenance tags carried
along (the string parts are exactly the Python return value, see
`chunk_text`). -/
def chunkTextTagged (text : List Char) (cs co : Nat) : List (List Char × Tag) :=
  if (pyStrip text).isEmpty then []
  else if text.length ≤ cs then [(text, Tag.plain)]
  else applyOverlap co (chunkTextCore text cs co)

/-- `chunk_text(text, chunk_size, chunk_overlap)` of chunking.py
(lines 37-92): the list of chunk strings. -/
def chunk_text (text : List Char) (cs co : Nat) : List (List Char) :=
  (chunkTextTagged text cs co).map (fun p => p.1)

/-- The duplicate `chunk_text` of build_index.py (lines 153-212): identical
body, but without the `if not text or not text.strip(): return []` guard, so
any input with `len(text) <= chunk_size` — including the empty string — is
returned whole as a one-element list. -/
def build_index_chunk_text (text : List Char) (cs co : Nat) : List (List Char) :=
  if text.length ≤ cs then [text]
  else (applyOverlap co (chunkTextCore text cs co)).map (fun p => p.1)

/-- A heading match of the regex `^(#{1,6})\\s+(.+)$` (re.MULTILINE) starting
at the head of the suffix `s` of the document: `#{1,6}` greedily takes the
whole run of `#` (a run longer than 6 cannot match, since the character after
at most 6 consumed `#` is again `#`, not whitespace); `\\s+` then greedily
takes the maximal whitespace run and backtracks (shrinking from the right)
until `(.+)$` can match, i.e. until the next character exists and is not a
newline; `(.+)` takes the maximal newline-free run, after which `$` always
holds.  Returns `(number of characters consumed, the title group)`. -/
def matchHeading (s : List Char) : Option (Nat × List Char) :=
  let r := (s.takeWhile (fun c => c == '#')).length
  if r = 0 ∨ 6 < r then none
  else
    let s1 := s.drop r
    let w := (s1.takeWhile isPySpace).length
    if w = 0 then none
    else
      match ((List.range w).map (fun x => w - x)).find?
          (fun l => (s1.drop l).head?.any (fun c => c != '\n')) with
      | none => none
      | some l =>
        let title := (s1.drop l).takeWhile (fun c => c != '\n')
        some (r + l + title.length, title)

/-- `re.finditer` of the heading pattern: the first match at or after
position `i` (in MULTILINE mode `^` anchors a match at position 0 or right
after a newline).  Returns `(start, end, title group)`. -/
def findHeadingFrom (t : List Char) (i : Nat) : Option (Nat × Nat × List Char) :=
  (List.range' i (t.length + 1 - i)).findSome? fun j =>
    if j = 0 ∨ t[j - 1]? = some '\n' then
      (matchHeading (t.drop j)).map fun m => (j, j + m.1, m.2)
    else none

/-- The section-accumulation loop of `parse_markdown_sections`
(chunking.py lines 18-29): `lastEnd` is the end of the previous match,
`lastTitle` the stripped title group of the previous match.  Fuel only
bounds the number of regex matches; `t.length + 1` always suffices since
every match consumes at least two characters. -/
def sectionsGo (t : List Char) :
    Nat → Nat → Option (List Char) → List (Option (List Char) × List Char) →
    List (Option (List Char) × List Char)
  | 0, _, _, acc => acc
  | fuel + 1, lastEnd, lastTitle, acc =>
    match findHeadingFrom t lastEnd with
    | none =>
      if lastEnd < t.length ∧ ¬ (pyStrip (t.drop lastEnd)).isEmpty then
        acc ++ [(lastTitle, pyStrip (t.drop lastEnd))]
      else acc
    | some (s, e, ti) =>
      let acc1 :=
        if lastEnd < s ∧ ¬ (pyStrip ((t.drop lastEnd).take (s - lastEnd))).isEmpty then
          acc ++ [(lastTitle, pyStrip ((t.drop lastEnd).take (s - lastEnd)))]
        else acc
      sectionsGo t fuel e (some (pyStrip ti)) acc1

/-- `parse_markdown_sections(text)` (chunking.py lines 7-34 and its identical
duplicate in build_index.py lines 118-150): split a document into
`(title, content)` sections at heading matches; if no section was produced
and the stripped text is non-empty, fall back to the single section
`(None, text.strip())`. -/
def parse_markdown_sections (t : List Char) : List (Option (List Char) × List Char) :=
  let secs := sectionsGo t (t.length + 1) 0 none []
  if secs.isEmpty ∧ ¬ (pyStrip t).isEmpty then [(none, pyStrip t)] else secs

/-- A Markdown heading line (without its trailing newline): `k` heading
markers, one space, the title text.  Used to state the Section Splitter
claims. -/
def headingLine (k : Nat) (title : List Char) : List Char :=
  List.replicate k '#' ++ ' ' :: title

/-- A chunk record produced by `process_file` (`id`, `source`, `title`,
`content`, `chunk_index`). -/
structure Chunk where
  id : String
  source : String
  title : Option (List Char)
  content : List Char
  chunk_index : Nat
deriving DecidableEq, Repr

/-- Appending one chunk record: `id = f"{source}:{chunk_index}"` and the
running index is incremented (chunking.py lines 108-118). -/
def chunkRecordStep (source : String) (title : Option (List Char))
    (st : List Chunk × Nat) (c : List Char) : List Chunk × Nat :=
  (st.1 ++ [{ id := source ++ ":" ++ toString st.2, source := source,
              title := title, content := c, chunk_index := st.2 }],
   st.2 + 1)

/-- The section/chunk loop shared by both `process_file` implementations
(chunking.py lines 100-120, build_index.py lines 225-244): one flat list of
chunk records per file, with a single running `chunk_index` that is *not*
restarted per section, and `id = f"{source}:{chunk_index}"`. -/
def processFileCore (source : String) (text : List Char)
    (chunkTextFn : List Char → Nat → Nat → List (List Char))
    (cs co : Nat) : List Chunk :=
  ((parse_markdown_sections text).foldl
    (fun (st : List Chunk × Nat) sec =>
      (chunkTextFn sec.2 cs co).foldl (chunkRecordStep source sec.1) st)
    ([], 0)).1

/-- `relative_path.replace("\\", "/")`: for this one-character pattern,
`str.replace` is exactly a character-by-character map. -/
def replaceBackslashes (s : String) : String :=
  String.mk (s.data.map (fun c => if c = '\\' then '/' else c))

/-- `process_file` of chunking.py (lines 95-120).  The file read and the
relative-path computation are OS calls; the function is modelled from the
point where `relative_path = str(path.relative_to(base_dir))` is available
as a string (`relPath`).  chunking.py then normalises it with
`.replace("\\", "/")`. -/
def process_file (relPath : String) (text : List Char) (cs co : Nat) : List Chunk :=
  processFileCore (replaceBackslashes relPath) text chunk_text cs co

/-- `process_file` of build_index.py (lines 215-244): identical, except that
`relative_path` is used as produced by `str(path.relative_to(base_dir))`
(platform-native separators, no normalisation) and the chunker is
build_index.py's own `chunk_text`. -/
def build_index_process_file (relPath : String) (text : List Char) (cs co : Nat) :
    List Chunk :=
  processFileCore relPath text build_index_chunk_text cs co

/-- Update of the insertion-ordered score dictionary:
`scores[chunk_id] = scores.get(chunk_id, 0) + v` (db.py line 165).  A present
key is updated in place; a new key is appended at the end, as in a Python
dict. -/
def updScore (m : List (String × ℚ)) (cid : String) (v : ℚ) : List (String × ℚ) :=
  match m with
  | [] => [(cid, v)]
  | p :: rest => if p.1 = cid then (p.1, p.2 + v) :: rest else p :: updScore rest cid v

/-- Folding one ranked list into the score dictionary
(db.py lines 163-165): `enumerate(results)` pairs each entry with its
zero-based rank, and each entry contributes `1.0 / (k + rank + 1)`. -/
def rrfFoldList (k : Nat) (m : List (String × ℚ)) (L : List (String × ℚ)) :
    List (String × ℚ) :=
  L.enum.foldl (fun m ri => updScore m ri.2.1 (((k : ℚ) + ri.1 + 1)⁻¹)) m

/-- Stable insertion (descending by score): the new pair — which precedes the
already-sorted pairs in the original order — skips only strictly larger
scores, so it lands before any pair with an equal score. -/
def insertScoreDesc (p : String × ℚ) : List (String × ℚ) → List (String × ℚ)
  | [] => [p]
  | q :: rest => if q.2 ≤ p.2 then p :: q :: rest else q :: insertScoreDesc p rest

/-- Stable sort, descending by score: extensionally what Python
`sorted(..., key=lambda x: x[1], reverse=True)` (a stable sort) computes. -/
def sortScoresDesc : List (String × ℚ) → List (String × ℚ)
  | [] => []
  | p :: rest => insertScoreDesc p (sortScoresDesc rest)

/-- `reciprocal_rank_fusion(results_lists, k=60)` (db.py lines 158-166, and
the identical mcp_server.py lines 102-120): accumulate reciprocal-rank
scores per id in a dict, then `sorted(scores.items(), key=lambda x: x[1],
reverse=True)` — a stable sort descending by score, so ties keep
first-insertion order.  (Scores are floats in the source, exact rationals
here.) -/
def reciprocal_rank_fusion (lists : List (List (String × ℚ))) (k : Nat) :
    List (String × ℚ) :=
  sortScoresDesc (lists.foldl (rrfFoldList k) [])

/-- The score the spec ascribes to an id: the sum, over the ranked lists that
contain the id, of `1 / (k + rank + 1)` with `rank` the zero-based position
of the id in that list. -/
def specScore (k : Nat) (lists : List (List (String × ℚ))) (id : String) : ℚ :=
  (lists.map (fun L =>
    if id ∈ L.map Prod.fst then ((k : ℚ) + (L.map Prod.fst).indexOf id + 1)⁻¹
    else 0)).sum

/-- A row of the `chunks` table as the search layer reads it
(`SELECT id, source, title, content, chunk_index`), keyed by `id` in the
environment. -/
structure StoreRow where
  source : String
  title : Option String
  content : String
  chunk_index : Nat
deriving DecidableEq, Repr

/-- The external collaborators of the query orchestrator: the keyword signal
(`search_fts`), the availability flag and the semantic signal
(`_has_vec` / `search_vec`), and row lookup in the `chunks` table. -/
structure SearchEnv where
  fts : String → Nat → List (String × ℚ)
  hasVec : Bool
  vec : String → Nat → List (String × ℚ)
  fetch : String → Option StoreRow

/-- A resolved search result (`chunk_id, source, title, content, chunk_index,
score`). -/
structure SearchResult where
  chunk_id : String
  source : String
  title : Option String
  content : String
  chunk_index : Nat
  score : ℚ
deriving DecidableEq, Repr

/-- `VALID_SEARCH_MODES` (db.py line 12). -/
def VALID_SEARCH_MODES : List String := ["keyword", "semantic", "hybrid"]

/-- The `results_lists` construction shared by db.py lines 183-187 and
mcp_server.py lines 168-178: the keyword list is appended when the mode asks
for it and it is non-empty; the semantic list when the mode asks for it, a
vector index is available, and it is non-empty. -/
def signalLists (env : SearchEnv) (q : String) (lim : Nat) (mode : String) :
    List (List (String × ℚ)) :=
  (if (mode = "keyword" ∨ mode = "hybrid") ∧ env.fts q lim ≠ [] then [env.fts q lim]
   else []) ++
  (if (mode = "semantic" ∨ mode = "hybrid") ∧ env.hasVec = true ∧ env.vec q lim ≠ []
   then [env.vec q lim] else [])

/-- `dict(combined).get(cid, 0)`: for duplicate keys in `combined` the last
pair wins, hence the lookup in the reversed list. -/
def dictGet (pairs : List (String × ℚ)) (cid : String) : ℚ :=
  ((pairs.reverse.find? (fun p => p.1 == cid)).map (fun p => p.2)).getD 0

/-- Python substring test `sub in hay`. -/
def strContains (hay sub : String) : Bool :=
  (List.range (hay.data.length + 1)).any (fun i => sub.data.isPrefixOf (hay.data.drop i))

/-- The trailing `if source_filter:` filter of db.py lines 222-223; note that
Python truthiness also skips the filter for the empty string. -/
def sourceFilterPass (sf : Option String) (results : List SearchResult) :
    List SearchResult :=
  match sf with
  | none => results
  | some s => if s = "" then results else results.filter (fun r => strContains r.source s)

/-- Resolution of ranked `(id, score)` pairs against the store, keeping pair
order and dropping ids the store cannot resolve, with each result carrying
the paired score.  (Reference form used in theorems; the code's score-lookup
path is proved equal to it for duplicate-free id lists.) -/
def resolvePairs (env : SearchEnv) (pairs : List (String × ℚ)) : List SearchResult :=
  pairs.filterMap (fun p => (env.fetch p.1).map (fun r =>
    { chunk_id := p.1, source := r.source, title := r.title, content := r.content,
      chunk_index := r.chunk_index, score := p.2 }))

/-- `search_docs(query, limit, mode, source_filter)` (db.py lines 172-225):
mode validation, signal gathering, single-signal truncation or RRF fusion,
resolution against the store preserving order and dropping unresolved ids,
and the final substring source filter.  `ValueError` is modelled as
`Except.error`. -/
def search_docs (env : SearchEnv) (q : String) (lim : Nat) (mode : String)
    (sf : Option String) : Except String (List SearchResult) :=
  if mode ∉ VALID_SEARCH_MODES then Except.error ("Invalid mode " ++ mode)
  else
    let lists := signalLists env q lim mode
    if lists.isEmpty then Except.ok []
    else
      let combined :=
        if lists.length = 1 then (lists.headI).take lim
        else (reciprocal_rank_fusion lists 60).take lim
      let chunkIds := combined.map Prod.fst
      Except.ok (sourceFilterPass sf
        (chunkIds.filterMap (fun cid => (env.fetch cid).map (fun r =>
          { chunk_id := cid, source := r.source, title := r.title,
            content := r.content, chunk_index := r.chunk_index,
            score := dictGet combined cid }))))

/-- `search_docs_impl(query, limit, mode)` (mcp_server.py lines 156-200):
the same orchestration, but with *no* mode validation and no source filter —
an unrecognised mode simply selects no signal and falls through to the empty
result. -/
def search_docs_impl (env : SearchEnv) (q : String) (lim : Nat) (mode : String) :
    List SearchResult :=
  let lists := signalLists env q lim mode
  if lists.isEmpty then []
  else
    let combined :=
      if lists.length = 1 then (lists.headI).take lim
      else (reciprocal_rank_fusion lists 60).take lim
    let chunkIds := combined.map Prod.fst
    chunkIds.filterMap (fun cid => (env.fetch cid).map (fun r =>
      { chunk_id := cid, source := r.source, title := r.title,
        content := r.content, chunk_index := r.chunk_index,
        score := dictGet combined cid }))

/-- Concatenation of the raw chunk sequence with the injected overlap text
stripped: a `plain` chunk and the first piece of a hard split are appended
with a single separating space; a hard-split continuation piece is appended
directly after dropping its first `chunk_overlap` characters (exactly the
intra-sentence overlap its window re-reads).  Tokenising this string states
the coverage property. -/
def stripContrib (co : Nat) (p : List Char × Tag) : List Char :=
  match p.2 with
  | Tag.hardCont => p.1.drop co
  | _ => ' ' :: p.1

/-- See `stripContrib`. -/
def overlapStripped (co : Nat) (l : List (List Char × Tag)) : List Char :=
  (l.map (stripContrib co)).flatten

/-- Store row fixtures for the orchestrator theorems. -/
def rowA : StoreRow := { source := "pkgx/a.md", title := some "A", content := "alpha", chunk_index := 0 }

/-- Store row fixtures for the orchestrator theorems. -/
def rowB : StoreRow := { source := "pkgx/b.md", title := none, content := "beta", chunk_index := 1 }

/-- Store row fixtures for the orchestrator theorems. -/
def rowC : StoreRow := { source := "other/c.md", title := none, content := "gamma", chunk_index := 0 }

/-- A concrete store/signal environment: three resolvable chunks, the keyword
signal ranks `c` (source `other/c.md`) above `a` and `b` (sources under
`pkgx/`), no vector index. -/
def envEx : SearchEnv :=
  { fts := fun _ lim => [("c", 3), ("a", 2), ("b", 1)].take lim
    hasVec := false
    vec := fun _ _ => []
    fetch := fun cid =>
      if cid = "a" then some rowA
      else if cid = "b" then some rowB
      else if cid = "c" then some rowC
      else none }

/-- Lookup in the insertion-ordered score dictionary: `scores.get(cid, 0)`. -/
def getScore (m : List (String × ℚ)) (cid : String) : ℚ :=
  ((m.find? (fun p => p.1 == cid)).map (fun p => p.2)).getD 0

/-- String-length invariant of the raw chunking state: every emitted chunk
and the running buffer stay within `chunk_size`. -/
def ChunkInv (cs : Nat) (st : List (List Char × Tag) × List Char) : Prop :=
  (∀ p ∈ st.1, p.1.length ≤ cs) ∧ st.2.length ≤ cs

/-- Invariant of the chunk-record fold: the running index equals the number
of records, the indices are `0, 1, 2, ...` in production order, and every
record has the exact id format and the given source. -/
def RecInv (source : String) (st : List Chunk × Nat) : Prop :=
  st.2 = st.1.length ∧
  st.1.map (fun c => c.chunk_index) = List.range st.1.length ∧
  ∀ c ∈ st.1, c.id = c.source ++ ":" ++ toString c.chunk_index ∧ c.source = source

/-- A piece list `ps` glued back to the string `l` by non-empty all-whitespace
separator runs between consecutive pieces: the relation the regex splitters
satisfy (`re.split` consumes exactly the separator runs). -/
inductive GluedWS : List (List Char) → List Char → Prop where
  | single (p : List Char) : GluedWS [p] p
  | cons (p sep : List Char) (ps : List (List Char)) (rest : List Char)
      (hne : sep ≠ []) (hws : ∀ c ∈ sep, isPySpace c = true)
      (htl : GluedWS ps rest) : GluedWS (p :: ps) (p ++ (sep ++ rest))

/-- The token content of a chunking state: the tokens already committed to
emitted chunks (read back through `overlapStripped`) followed by the tokens
of the running buffer.  The loop invariant of the coverage proof. -/
def tokState (co : Nat) (st : List (List Char × Tag) × List Char) : List (List Char) :=
  pyTokens (overlapStripped co st.1) ++ pyTokens st.2

/-! ## Theorems -/

/-- C8 counterexample: the claim as stated fails twice.  chunking.py's
`chunk_text` returns `[]` (not a one-element list) for the non-empty,
whitespace-only input `"   "` of length at most `chunk_size`; and
build_index.py's duplicate `chunk_text` returns `[""]` (not `[]`) for the
empty input, since it lacks the emptiness guard. -/
theorem chunk_text_total_counterexample :
    chunk_text ("   ".data) 100 10 = [] ∧ ("   ".data) ≠ [] ∧ ("   ".data).length ≤ 100 ∧
    build_index_chunk_text ([] : List Char) 100 10 = [[]] := by
  refine ⟨by decide, by decide, by decide, by decide⟩

/-- C8 amended: chunking.py's `chunk_text` returns `[]` for every empty or
whitespace-only input, and returns the input as a single chunk for every
input that contains a non-whitespace character and has length at most
`chunk_size`; build_index.py's duplicate returns the input as a single chunk
for *every* input of length at most `chunk_size`, including empty and
whitespace-only inputs.  (Totality over all string inputs is by construction
of the embedding; Python-side, the only exception in either version is the
caller contract violation `chunk_overlap = chunk_size` inside a hard split.) -/
theorem chunk_text_total_amended (t : List Char) (cs co : Nat) :
    (pyStrip t = [] → chunk_text t cs co = []) ∧
    (pyStrip t ≠ [] → t.length ≤ cs → chunk_text t cs co = [t]) ∧
    (t.length ≤ cs → build_index_chunk_text t cs co = [t]) := by
  refine ⟨fun h => ?_, fun h hl => ?_, fun hl => ?_⟩
  · simp [chunk_text, chunkTextTagged, h]
  · simp [chunk_text, chunkTextTagged, h, hl]
  · simp [build_index_chunk_text, hl]

/-- Witness for C8 amended at concrete inputs. -/
theorem chunk_text_total_amended_witness :
    chunk_text (" \n ".data) 100 10 = [] ∧
    chunk_text ("hi".data) 100 10 = ["hi".data] ∧
    build_index_chunk_text ([] : List Char) 100 10 = [[]] :=
  ⟨(chunk_text_total_amended (" \n ".data) 100 10).1 (by decide),
   (chunk_text_total_amended ("hi".data) 100 10).2.1 (by decide) (by decide),
   by
    have h := (chunk_text_total_amended ([] : List Char) 100 10).2.2 (by decide)
    simpa using h⟩

/-- C5 counterexample: `search_docs_impl` of mcp_server.py does not validate
the mode.  In an environment whose keyword signal has results, the
unrecognised mode `"bogus"` is silently coerced into an empty result
(no error is surfaced), while mode `"keyword"` returns results. -/
theorem invalid_mode_counterexample :
    search_docs_impl envEx "q" 10 "bogus" = [] ∧
    search_docs_impl envEx "q" 10 "keyword" ≠ [] := by
  refine ⟨by decide, by decide⟩

/-- C5 amended: db.py's `search_docs` rejects an unrecognised mode with
`ValueError` before consulting any retrieval signal (the error is the same
for every environment, so no signal can have been invoked), but
mcp_server.py's `search_docs_impl` performs no validation and silently
returns an empty result for an unrecognised mode. -/
theorem invalid_mode_amended (env : SearchEnv) (q : String) (lim : Nat)
    (mode : String) (sf : Option String) (h : mode ∉ VALID_SEARCH_MODES) :
    search_docs env q lim mode sf = Except.error ("Invalid mode " ++ mode) ∧
    search_docs_impl env q lim mode = [] := by
  constructor
  · simp [search_docs, h]
  · have h1 : ¬ (mode = "keyword" ∨ mode = "hybrid") := by
      simp [VALID_SEARCH_MODES] at h
      tauto
    have h2 : ¬ (mode = "semantic" ∨ mode = "hybrid") := by
      simp [VALID_SEARCH_MODES] at h
      tauto
    simp [search_docs_impl, signalLists, h1, h2]

/-- Witness for C5 amended at a concrete environment and mode. -/
theorem invalid_mode_amended_witness :
    search_docs envEx "q" 10 "bogus" none = Except.error "Invalid mode bogus" ∧
    search_docs_impl envEx "q" 10 "bogus" = [] := by
  have h := invalid_mode_amended envEx "q" 10 "bogus" none (by decide)
  simpa using h

/-- C10: in `search_docs` the source filter runs only after the ranking has
been truncated to `limit` and resolved.  In the concrete store `envEx`,
two chunks (`a`, `b`) match both the query (they are in the keyword
signal's ranking) and the filter `"pkgx"`, yet a `limit = 1` search returns
zero results, because the single kept candidate `c` is filtered away
afterwards. -/
theorem source_filter_after_truncation :
    search_docs envEx "q" 1 "keyword" (some "pkgx") = Except.ok [] ∧
    ((envEx.fts "q" 3).map Prod.fst |>.filter (fun cid =>
      match envEx.fetch cid with
      | some r => strContains r.source "pkgx"
      | none => false)).length = 2 := by
  refine ⟨by rfl, by decide⟩

/-- Each fixed-width hard-split piece is at most `chunk_size` long. -/
theorem hardSplit_le (sent : List Char) (cs co : Nat) :
    ∀ p ∈ hardSplit sent cs co, p.length ≤ cs := by
  intro p hp
  unfold hardSplit at hp
  by_cases h : cs - co = 0
  · simp [h] at hp
  · simp [h] at hp
    obtain ⟨i, _, rfl⟩ := hp
    simp [List.length_take]

/-- Exact length of the `j`-th hard-split piece: `chunk_size`, except where
the window `sent[i : i + chunk_size]` runs past the end of the sentence. -/
theorem hardSplit_get_length (sent : List Char) (cs co : Nat) (h : co < cs)
    (j : Nat) (hj : j < (hardSplit sent cs co).length) :
    ((hardSplit sent cs co).get ⟨j, hj⟩).length =
      min cs (sent.length - (cs - co) * j) := by
  have hst : cs - co ≠ 0 := by omega
  revert hj
  unfold hardSplit
  simp [hst, List.length_take, List.length_drop]

/-- The tagged hard split carries exactly the `hardSplit` strings. -/
theorem hardSplitT_map_fst (sent : List Char) (cs co : Nat) :
    (hardSplitT sent cs co).map (fun p => p.1) = hardSplit sent cs co := by
  unfold hardSplitT
  cases h : hardSplit sent cs co with
  | nil => simp
  | cons p ps => simp [List.map_map, Function.comp_def]

theorem flush_le {cs : Nat} {st : List (List Char × Tag) × List Char}
    (h1 : ∀ p ∈ st.1, p.1.length ≤ cs) (h2 : st.2.length ≤ cs) :
    ∀ p ∈ (if st.2.isEmpty then st.1 else st.1 ++ [(st.2, Tag.plain)]),
      p.1.length ≤ cs := by
  intro p hp
  by_cases he : st.2 = []
  · rw [he] at hp
    simp only [List.isEmpty_nil, if_true] at hp
    exact h1 p hp
  · rw [List.isEmpty_eq_false.2 he] at hp
    simp only [Bool.false_eq_true, if_false, List.mem_append, List.mem_singleton] at hp
    rcases hp with hp | hp
    · exact h1 p hp
    · subst hp; exact h2

theorem sentStep_inv {cs co : Nat} {st : List (List Char × Tag) × List Char}
    (hst : ChunkInv cs st) (sent : List Char) :
    ChunkInv cs (sentStep cs co st sent) := by
  obtain ⟨h1, h2⟩ := hst
  have hflush := flush_le h1 h2
  unfold sentStep
  by_cases hc : st.2.length + sent.length + 1 ≤ cs
  · rw [if_pos hc]
    refine ⟨h1, ?_⟩
    by_cases he : st.2 = []
    · simp only [he, List.isEmpty_nil, if_pos]
      simp [he] at hc ⊢
      omega
    · simp only [List.isEmpty_eq_false.2 he, Bool.false_eq_true, if_neg,
        not_false_iff, List.length_append, List.length_cons]
      omega
  · rw [if_neg hc]
    by_cases hlong : cs < sent.length
    · rw [if_pos hlong]
      refine ⟨?_, by simp⟩
      intro p hp
      rcases List.mem_append.1 hp with hp | hp
      · exact hflush p hp
      · have : p.1 ∈ hardSplit sent cs co := by
          rw [← hardSplitT_map_fst sent cs co]
          exact List.mem_map_of_mem _ hp
        exact hardSplit_le sent cs co p.1 this
    · rw [if_neg hlong]
      exact ⟨hflush, show sent.length ≤ cs by omega⟩

theorem sentFold_inv {cs co : Nat} {st : List (List Char × Tag) × List Char}
    (hst : ChunkInv cs st) (L : List (List Char)) :
    ChunkInv cs (L.foldl (sentStep cs co) st) := by
  induction L generalizing st with
  | nil => exact hst
  | cons a L ih => exact ih (sentStep_inv hst a)

theorem paraStep_inv {cs co : Nat} {st : List (List Char × Tag) × List Char}
    (hst : ChunkInv cs st) (para0 : List Char) :
    ChunkInv cs (paraStep cs co st para0) := by
  obtain ⟨h1, h2⟩ := hst
  have hflush := flush_le h1 h2
  unfold paraStep
  by_cases hemp : (pyStrip para0).isEmpty
  · simpa [hemp] using ⟨h1, h2⟩
  · rw [if_neg (by simpa using hemp)]
    by_cases hc : st.2.length + (pyStrip para0).length + 2 ≤ cs
    · rw [if_pos hc]
      refine ⟨h1, ?_⟩
      by_cases he : st.2 = []
      · simp only [he, List.isEmpty_nil, if_pos]
        simp [he] at hc ⊢
        omega
      · simp only [List.isEmpty_eq_false.2 he, Bool.false_eq_true, if_neg,
          not_false_iff, List.length_append, List.length_cons]
        omega
    · rw [if_neg hc]
      by_cases hlong : cs < (pyStrip para0).length
      · rw [if_pos hlong]
        exact sentFold_inv ⟨hflush, by simp⟩ _
      · rw [if_neg hlong]
        exact ⟨hflush, show (pyStrip para0).length ≤ cs by omega⟩

theorem paraFold_inv {cs co : Nat} {st : List (List Char × Tag) × List Char}
    (hst : ChunkInv cs st) (L : List (List Char)) :
    ChunkInv cs (L.foldl (paraStep cs co) st) := by
  induction L generalizing st with
  | nil => exact hst
  | cons a L ih => exact ih (paraStep_inv hst a)

/-- Every raw (pre-overlap) chunk string has length at most `chunk_size`. -/
theorem chunkTextCore_le (text : List Char) (cs co : Nat) :
    ∀ p ∈ chunkTextCore text cs co, p.1.length ≤ cs := by
  have hinv : ChunkInv cs ((splitParas text).foldl (paraStep cs co) ([], [])) :=
    paraFold_inv ⟨by intro p hp; simp at hp, by simp⟩ _
  intro p hp
  exact flush_le hinv.1 hinv.2 p hp

theorem prevEnd_le (co : Nat) (prev : List Char) : (prevEnd co prev).length ≤ co := by
  unfold prevEnd
  by_cases h : co < prev.length
  · rw [if_pos h]
    simp [List.length_drop]
    omega
  · rw [if_neg h]
    omega

theorem overlapAux_le {cs co : Nat} (rest : List (List Char × Tag)) (prev : List Char)
    (h : ∀ p ∈ rest, p.1.length ≤ cs) :
    ∀ q ∈ overlapAux co prev rest, q.1.length ≤ cs + co + 1 := by
  induction rest generalizing prev with
  | nil => intro q hq; simp [overlapAux] at hq
  | cons c rest ih =>
    intro q hq
    simp only [overlapAux, List.mem_cons] at hq
    rcases hq with rfl | hq
    · simp only [List.length_append, List.length_cons]
      have h1 := prevEnd_le co prev
      have h2 := h c (List.mem_cons_self c rest)
      omega
    · exact ih c.1 (fun p hp => h p (List.mem_cons_of_mem c hp)) q hq

/-- Every chunk returned by `chunk_text` has length at most
`chunk_size + chunk_overlap + 1` (the raw bound plus the prepended overlap
prefix and joining space). -/
theorem chunk_text_le (text : List Char) (cs co : Nat) :
    ∀ c ∈ chunk_text text cs co, c.length ≤ cs + co + 1 := by
  intro c hc
  unfold chunk_text chunkTextTagged at hc
  by_cases h1 : (pyStrip text).isEmpty
  · rw [if_pos h1] at hc; simp at hc
  · rw [if_neg h1] at hc
    by_cases h2 : text.length ≤ cs
    · rw [if_pos h2] at hc
      simp at hc
      subst hc
      omega
    · rw [if_neg h2] at hc
      have hcore := chunkTextCore_le text cs co
      unfold applyOverlap at hc
      by_cases h3 : 0 < co ∧ 1 < (chunkTextCore text cs co).length
      · rw [if_pos h3] at hc
        rcases hmatch : chunkTextCore text cs co with _ | ⟨c0, rest⟩
        · rw [hmatch] at hc; simp at hc
        · rw [hmatch] at hc
          simp only [List.map_cons, List.mem_cons] at hc
          rcases hc with rfl | hc
          · have := hcore c0 (by rw [hmatch]; exact List.mem_cons_self c0 rest)
            omega
          · obtain ⟨q, hq, rfl⟩ := List.mem_map.1 hc
            have hrest : ∀ p ∈ rest, p.1.length ≤ cs := by
              intro p hp
              exact hcore p (by rw [hmatch]; exact List.mem_cons_of_mem c0 hp)
            exact overlapAux_le rest c0.1 hrest q hq
      · rw [if_neg h3] at hc
        obtain ⟨q, hq, rfl⟩ := List.mem_map.1 hc
        have := hcore q hq
        omega

/-- C1 counterexample: the claim as stated fails on both of its clauses.
With `chunk_size = 6, chunk_overlap = 2` on `"aaaa\n\nbbbb"`, `chunk_text`
returns the chunk `"aa bbbb"` of length `7 > chunk_size`, and that chunk was
produced by the greedy accumulator plus the overlap pass, not by a hard
character split (its provenance tag is `plain`).  And with
`chunk_size = 6, chunk_overlap = 4` on a ten-character single-token input,
the pre-overlap hard split produces pieces of lengths `6, 6, 6, 4, 2`: the
piece of length `4` is neither of length `chunk_size` nor the last piece. -/
theorem chunk_size_bound_counterexample :
    chunk_text ("aaaa\n\nbbbb".data) 6 2 = ["aaaa".data, "aa bbbb".data] ∧
    chunkTextTagged ("aaaa\n\nbbbb".data) 6 2 =
      [("aaaa".data, Tag.plain), ("aa bbbb".data, Tag.plain)] ∧
    ("aa bbbb".data).length = 7 ∧
    (chunkTextCore ("aaaaaaaaaa".data) 6 4).map (fun p => (p.1.length, p.2)) =
      [(6, Tag.hardFirst), (6, Tag.hardCont), (6, Tag.hardCont),
       (4, Tag.hardCont), (2, Tag.hardCont)] := by
  refine ⟨by decide, by decide, by decide, by decide⟩

/-- C1 amended: before the overlap pass, every chunk (hard-split pieces
included) has length at most `chunk_size`; the `j`-th piece of a hard
character split of a sentence has length exactly
`min chunk_size (len(sentence) - j * (chunk_size - chunk_overlap))` — i.e.
exactly `chunk_size` except for the trailing windows that run past the end
of the sentence, of which there can be more than one; and after the overlap
pass every returned chunk has length at most
`chunk_size + chunk_overlap + 1`. -/
theorem chunk_size_bound_amended (text : List Char) (cs co : Nat) :
    (∀ p ∈ chunkTextCore text cs co, p.1.length ≤ cs) ∧
    (∀ c ∈ chunk_text text cs co, c.length ≤ cs + co + 1) ∧
    (co < cs → ∀ (sent : List Char) (j : Nat) (hj : j < (hardSplit sent cs co).length),
      ((hardSplit sent cs co).get ⟨j, hj⟩).length =
        min cs (sent.length - (cs - co) * j)) :=
  ⟨chunkTextCore_le text cs co, chunk_text_le text cs co,
   fun h sent j hj => hardSplit_get_length sent cs co h j hj⟩

/-- Witness for C1 amended at `chunk_size = 6, chunk_overlap = 4`. -/
theorem chunk_size_bound_amended_witness :
    (∀ c ∈ chunk_text ("aaaaaaaaaa".data) 6 4, c.length ≤ 11) ∧
    ((hardSplit ("aaaaaaaaaa".data) 6 4).get ⟨3, by decide⟩).length = min 6 (10 - 2 * 3) := by
  have h := chunk_size_bound_amended ("aaaaaaaaaa".data) 6 4
  exact ⟨h.2.1, by simpa using h.2.2 (by decide) ("aaaaaaaaaa".data) 3 (by decide)⟩

theorem pyTokensGo_congr :
    ∀ (f1 : Nat) (l : List Char) (f2 : Nat), l.length ≤ f1 → l.length ≤ f2 →
      pyTokensGo f1 l = pyTokensGo f2 l := by
  intro f1
  induction f1 with
  | zero =>
    intro l f2 h1 _
    have : l = [] := List.length_eq_zero.1 (Nat.le_zero.1 h1)
    subst this
    cases f2 <;> rfl
  | succ f ih =>
    intro l f2 h1 h2
    cases l with
    | nil => cases f2 <;> rfl
    | cons c r =>
      cases f2 with
      | zero => simp at h2
      | succ g =>
        simp only [pyTokensGo]
        have hr : r.length ≤ f := by simp at h1; omega
        have hrg : r.length ≤ g := by simp at h2; omega
        have hd : (r.dropWhile (fun d => !isPySpace d)).length ≤ r.length :=
          (List.dropWhile_sublist _).length_le
        by_cases hc : isPySpace c
        · rw [if_pos hc, if_pos hc]
          exact ih r g hr hrg
        · rw [if_neg hc, if_neg hc]
          rw [ih (r.dropWhile (fun d => !isPySpace d)) g (by omega) (by omega)]

theorem pyTokens_nil : pyTokens [] = [] := rfl

theorem pyTokens_cons (c : Char) (r : List Char) :
    pyTokens (c :: r) =
      if isPySpace c then pyTokens r
      else (c :: r.takeWhile (fun d => !isPySpace d)) ::
        pyTokens (r.dropWhile (fun d => !isPySpace d)) := by
  show pyTokensGo (r.length + 1) (c :: r) = _
  simp only [pyTokensGo]
  have hd : (r.dropWhile (fun d => !isPySpace d)).length ≤ r.length :=
    (List.dropWhile_sublist _).length_le
  by_cases hc : isPySpace c
  · rw [if_pos hc, if_pos hc]
    rfl
  · rw [if_neg hc, if_neg hc]
    rw [pyTokensGo_congr r.length _ _ hd le_rfl]
    rfl

theorem splitParasGo_congr :
    ∀ (f1 : Nat) (l : List Char) (f2 : Nat), l.length ≤ f1 → l.length ≤ f2 →
      splitParasGo f1 l = splitParasGo f2 l := by
  intro f1
  induction f1 with
  | zero =>
    intro l f2 h1 _
    have : l = [] := List.length_eq_zero.1 (Nat.le_zero.1 h1)
    subst this
    cases f2 <;> rfl
  | succ f ih =>
    intro l f2 h1 h2
    cases l with
    | nil => cases f2 <;> rfl
    | cons c r =>
      cases f2 with
      | zero => simp at h2
      | succ g =>
        simp only [splitParasGo]
        have hr : r.length ≤ f := by simp at h1; omega
        have hrg : r.length ≤ g := by simp at h2; omega
        have hd : (r.dropWhile (· == '\n')).length ≤ r.length :=
          (List.dropWhile_sublist _).length_le
        by_cases hc : (c == '\n' && r.head?.any (· == '\n')) = true
        · rw [if_pos hc, if_pos hc]
          rw [ih (r.dropWhile (· == '\n')) g (by omega) (by omega)]
        · rw [if_neg hc, if_neg hc]
          rw [ih r g hr hrg]

theorem splitParas_nil : splitParas [] = [[]] := rfl

theorem splitParas_cons (c : Char) (r : List Char) :
    splitParas (c :: r) =
      if c == '\n' && r.head?.any (· == '\n') then
        [] :: splitParas (r.dropWhile (· == '\n'))
      else
        match splitParas r with
        | [] => [[c]]
        | p :: ps => (c :: p) :: ps := by
  show splitParasGo (r.length + 1) (c :: r) = _
  simp only [splitParasGo]
  have hd : (r.dropWhile (· == '\n')).length ≤ r.length :=
    (List.dropWhile_sublist _).length_le
  by_cases hc : (c == '\n' && r.head?.any (· == '\n')) = true
  · rw [if_pos hc, if_pos hc]
    rw [splitParasGo_congr r.length _ _ hd le_rfl]
    rfl
  · rw [if_neg hc, if_neg hc]
    rfl

theorem splitSentsGo_congr :
    ∀ (f1 : Nat) (b : Bool) (l : List Char) (f2 : Nat), l.length ≤ f1 → l.length ≤ f2 →
      splitSentsGo f1 b l = splitSentsGo f2 b l := by
  intro f1
  induction f1 with
  | zero =>
    intro b l f2 h1 _
    have : l = [] := List.length_eq_zero.1 (Nat.le_zero.1 h1)
    subst this
    cases f2 <;> rfl
  | succ f ih =>
    intro b l f2 h1 h2
    cases l with
    | nil => cases f2 <;> rfl
    | cons c r =>
      cases f2 with
      | zero => simp at h2
      | succ g =>
        simp only [splitSentsGo]
        have hr : r.length ≤ f := by simp at h1; omega
        have hrg : r.length ≤ g := by simp at h2; omega
        have hd : (r.dropWhile isPySpace).length ≤ r.length :=
          (List.dropWhile_sublist _).length_le
        by_cases hc : (isPySpace c && b) = true
        · rw [if_pos hc, if_pos hc]
          rw [ih false (r.dropWhile isPySpace) g (by omega) (by omega)]
        · rw [if_neg hc, if_neg hc]
          rw [ih (c == '.' || c == '!' || c == '?') r g hr hrg]

theorem splitSentsFrom_nil (b : Bool) : splitSentsFrom b [] = [[]] := rfl

theorem splitSentsFrom_cons (b : Bool) (c : Char) (r : List Char) :
    splitSentsFrom b (c :: r) =
      if isPySpace c && b then
        [] :: splitSentsFrom false (r.dropWhile isPySpace)
      else
        match splitSentsFrom (c == '.' || c == '!' || c == '?') r with
        | [] => [[c]]
        | p :: ps => (c :: p) :: ps := by
  show splitSentsGo (r.length + 1) b (c :: r) = _
  simp only [splitSentsGo]
  have hd : (r.dropWhile isPySpace).length ≤ r.length :=
    (List.dropWhile_sublist _).length_le
  by_cases hc : (isPySpace c && b) = true
  · rw [if_pos hc, if_pos hc]
    rw [splitSentsGo_congr r.length false _ _ hd le_rfl]
    rfl
  · rw [if_neg hc, if_neg hc]
    rfl

theorem overlapAux_length (co : Nat) :
    ∀ (rest : List (List Char × Tag)) (prev : List Char),
      (overlapAux co prev rest).length = rest.length := by
  intro rest
  induction rest with
  | nil => intro prev; rfl
  | cons c rest ih => intro prev; simp [overlapAux, ih c.1]

theorem overlapAux_getElem (co : Nat) :
    ∀ (rest : List (List Char × Tag)) (prev : List Char) (i : Nat)
      (pstr : List Char) (q : List Char × Tag),
      (prev :: rest.map (fun p => p.1))[i]? = some pstr →
      rest[i]? = some q →
      (overlapAux co prev rest)[i]? = some (prevEnd co pstr ++ ' ' :: q.1, q.2) := by
  intro rest
  induction rest with
  | nil =>
    intro prev i pstr q _ h2
    simp at h2
  | cons c rest ih =>
    intro prev i pstr q h1 h2
    cases i with
    | zero =>
      simp at h1 h2
      subst h1; subst h2
      simp [overlapAux]
    | succ i =>
      simp only [List.getElem?_cons_succ] at h1 h2
      simpa [overlapAux] using ih c.1 i pstr q h1 h2

/-- C4: the overlap pass (when `chunk_overlap > 0` and there are at least two
raw chunks) keeps the first chunk unmodified and prepends to every later
chunk the trailing `chunk_overlap` characters of the immediately preceding
*pre-overlap* chunk (the full chunk when it is not longer than
`chunk_overlap`), joined by a single space — prefixes are never compounded
from already-overlapped chunks, since position `i+1` of the output is built
from positions `i` and `i+1` of the raw input.  When `chunk_overlap = 0` the
pass leaves the chunk list unchanged.  The last conjunct ties the pass to
`chunk_text`: on an input that is neither empty/whitespace-only nor short
enough to be returned whole, `chunk_text` is exactly the overlap pass applied
to the raw chunk sequence. -/
theorem overlap_pass_spec (raw : List (List Char × Tag)) (co : Nat) :
    (0 < co → 2 ≤ raw.length →
      (applyOverlap co raw).length = raw.length ∧
      (applyOverlap co raw)[0]? = raw[0]? ∧
      (∀ (i : Nat) (p q : List Char × Tag), raw[i]? = some p → raw[i + 1]? = some q →
        (applyOverlap co raw)[i + 1]? =
          some (prevEnd co p.1 ++ ' ' :: q.1, q.2))) ∧
    (co = 0 → applyOverlap co raw = raw) ∧
    (∀ (text : List Char) (cs : Nat), ¬ (pyStrip text).isEmpty = true →
      ¬ text.length ≤ cs →
      chunk_text text cs co =
        (applyOverlap co (chunkTextCore text cs co)).map (fun p => p.1)) := by
  refine ⟨fun h0 h2 => ?_, fun h0 => ?_, fun text cs h1 h2 => ?_⟩
  · have hcond : 0 < co ∧ 1 < raw.length := ⟨h0, by omega⟩
    unfold applyOverlap
    rw [if_pos hcond]
    cases raw with
    | nil => simp at h2
    | cons a rest =>
      refine ⟨by simp [overlapAux_length], by simp, ?_⟩
      intro i p q hp hq
      simp only [List.getElem?_cons_succ] at hq ⊢
      apply overlapAux_getElem co rest a.1 i p.1 q _ hq
      have : ((a :: rest).map (fun p => p.1))[i]? = some p.1 := by
        rw [List.getElem?_map, hp]
        rfl
      simpa using this
  · unfold applyOverlap
    rw [if_neg (by omega)]
  · unfold chunk_text chunkTextTagged
    rw [if_neg h1, if_neg h2]

/-- Witness for C4 at a concrete raw chunk list and `chunk_overlap = 2`. -/
theorem overlap_pass_spec_witness :
    (applyOverlap 2 [("abcde".data, Tag.plain), ("xy".data, Tag.plain)])[1]? =
      some (prevEnd 2 ("abcde".data) ++ ' ' :: "xy".data, Tag.plain) := by
  have h := (overlap_pass_spec [("abcde".data, Tag.plain), ("xy".data, Tag.plain)] 2).1
    (by decide) (by decide)
  exact h.2.2 0 ("abcde".data, Tag.plain) ("xy".data, Tag.plain) (by decide) (by decide)

theorem chunkRecordStep_inv {source : String} {title : Option (List Char)}
    {st : List Chunk × Nat} (h : RecInv source st) (c : List Char) :
    RecInv source (chunkRecordStep source title st c) := by
  obtain ⟨h1, h2, h3⟩ := h
  refine ⟨by simp [chunkRecordStep, h1], ?_, ?_⟩
  · simp only [chunkRecordStep, List.map_append, List.length_append, List.map_cons,
      List.map_nil, List.length_cons, List.length_nil]
    rw [h2, h1]
    simp [List.range_succ]
  · intro d hd
    simp only [chunkRecordStep, List.mem_append, List.mem_singleton] at hd
    rcases hd with hd | hd
    · exact h3 d hd
    · subst hd
      exact ⟨rfl, rfl⟩

theorem chunkRecordFold_inv {source : String} {title : Option (List Char)}
    {st : List Chunk × Nat} (h : RecInv source st) (L : List (List Char)) :
    RecInv source (L.foldl (chunkRecordStep source title) st) := by
  induction L generalizing st with
  | nil => exact h
  | cons a L ih => exact ih (chunkRecordStep_inv h a)

theorem sectionFold_inv {source : String}
    {chunkTextFn : List Char → Nat → Nat → List (List Char)} {cs co : Nat}
    {st : List Chunk × Nat} (h : RecInv source st)
    (secs : List (Option (List Char) × List Char)) :
    RecInv source (secs.foldl
      (fun st sec => (chunkTextFn sec.2 cs co).foldl (chunkRecordStep source sec.1) st)
      st) := by
  induction secs generalizing st with
  | nil => exact h
  | cons sec secs ih => exact ih (chunkRecordFold_inv h _)

theorem processFileCore_spec (source : String) (text : List Char)
    (chunkTextFn : List Char → Nat → Nat → List (List Char)) (cs co : Nat) :
    (processFileCore source text chunkTextFn cs co).map (fun c => c.chunk_index) =
      List.range (processFileCore source text chunkTextFn cs co).length ∧
    ∀ c ∈ processFileCore source text chunkTextFn cs co,
      c.id = c.source ++ ":" ++ toString c.chunk_index ∧ c.source = source := by
  have h := @sectionFold_inv source chunkTextFn cs co (([] : List Chunk), 0)
    ⟨rfl, rfl, by intro c hc; simp at hc⟩ (parse_markdown_sections text)
  exact ⟨h.2.1, h.2.2⟩

/-- C7 counterexample: the indexing pipeline (build_index.py, whose `main`
calls its own `process_file`) does *not* normalise path separators: on the
relative path string `"docs\\a.md"` (as `str(Path.relative_to(...))` yields
on Windows) the produced record keeps the backslash in `source`, while
chunking.py's `process_file` — used by the tests — replaces it by a forward
slash.  db.py's `list_modules` even splits stored sources on either
separator, confirming that backslash sources reach the store. -/
theorem chunk_ids_counterexample :
    (build_index_process_file "docs\\a.md" ("hello".data) 100 10).map
      (fun c => c.source) = ["docs\\a.md"] ∧
    ("docs\\a.md".data).contains '\\' = true ∧
    (process_file "docs\\a.md" ("hello".data) 100 10).map
      (fun c => c.source) = ["docs/a.md"] := by
  refine ⟨by decide, by decide, by decide⟩

/-- C7 amended: for both `process_file` implementations, the records of a
file carry `chunk_index = 0, 1, 2, ...` in production order across all
sections (a single running counter, not restarted per section) and ids of
the exact form `"{source}:{chunk_index}"`. chunking.py's `process_file`
stores the relative path with backslashes replaced by forward slashes, while
build_index.py's `process_file` (the one the indexing pipeline invokes)
stores the platform-native relative path unchanged, so on Windows its
sources keep backslash separators. -/
theorem chunk_ids_amended (relPath : String) (text : List Char) (cs co : Nat) :
    ((process_file relPath text cs co).map (fun c => c.chunk_index) =
      List.range (process_file relPath text cs co).length ∧
     ∀ c ∈ process_file relPath text cs co,
       c.id = c.source ++ ":" ++ toString c.chunk_index ∧
       c.source = replaceBackslashes relPath) ∧
    ((build_index_process_file relPath text cs co).map (fun c => c.chunk_index) =
      List.range (build_index_process_file relPath text cs co).length ∧
     ∀ c ∈ build_index_process_file relPath text cs co,
       c.id = c.source ++ ":" ++ toString c.chunk_index ∧ c.source = relPath) :=
  ⟨processFileCore_spec (replaceBackslashes relPath) text chunk_text cs co,
   processFileCore_spec relPath text build_index_chunk_text cs co⟩

theorem takeWhile_hashes (k : Nat) (rest : List Char)
    (h : ∀ c, rest.head? = some c → (c == '#') = false) :
    (List.replicate k '#' ++ rest).takeWhile (fun c => c == '#') =
      List.replicate k '#' := by
  induction k with
  | zero =>
    simp only [List.replicate, List.nil_append]
    cases rest with
    | nil => rfl
    | cons c r =>
      simp only [List.takeWhile_cons]
      rw [h c rfl]
      rfl
  | succ k ih =>
    simp only [List.replicate, List.cons_append, List.takeWhile_cons]
    simp [ih]

theorem pyStrip_cons_ws (c : Char) (l : List Char) (h : isPySpace c = true) :
    pyStrip (c :: l) = pyStrip l := by
  unfold pyStrip
  rw [List.dropWhile_cons_of_pos h]

theorem pyStrip_all_ws (l : List Char) (h : ∀ c ∈ l, isPySpace c = true) :
    pyStrip l = [] := by
  unfold pyStrip
  rw [List.dropWhile_eq_nil_iff.2 h]
  rfl

theorem matchHeading_none (s : List Char)
    (h : ∀ c, s.head? = some c → c ≠ '#') : matchHeading s = none := by
  unfold matchHeading
  have hr : (s.takeWhile (fun c => c == '#')).length = 0 := by
    cases s with
    | nil => rfl
    | cons c r =>
      simp only [List.takeWhile_cons]
      have := h c rfl
      rw [beq_eq_false_iff_ne.2 this]
      rfl
  rw [if_pos (Or.inl hr)]

theorem findHeadingFrom_none (t : List Char) (i : Nat)
    (h : ∀ j c, i ≤ j → t[j]? = some c → c ≠ '#') :
    findHeadingFrom t i = none := by
  unfold findHeadingFrom
  rw [List.findSome?_eq_none_iff]
  intro j hj
  have hji : i ≤ j := by
    rcases List.mem_range'_1.1 hj with ⟨h1, _⟩
    exact h1
  by_cases hls : j = 0 ∨ t[j - 1]? = some '\n'
  · rw [if_pos hls]
    rw [matchHeading_none (t.drop j) ?_]
    · rfl
    · intro c hc
      rw [List.head?_drop] at hc
      exact h j c hji hc
  · rw [if_neg hls]

theorem takeWhile_no_nl (t1 u : List Char) (h : '\n' ∉ t1) :
    (t1 ++ '\n' :: u).takeWhile (fun c => c != '\n') = t1 := by
  induction t1 with
  | nil => simp
  | cons c t1 ih =>
    simp only [List.mem_cons, not_or] at h
    simp only [List.cons_append, List.takeWhile_cons]
    have hcn : (c != '\n') = true := bne_iff_ne.2 (fun hh => h.1 hh.symm)
    rw [hcn]
    simp [ih h.2]

/-- Heading match on a well-formed heading line: `k` hashes (`1 ≤ k ≤ 6`),
one space, a non-empty newline-free title whose first character is not
whitespace, then a newline.  The match consumes through the end of the
title and captures exactly the title. -/
theorem matchHeading_shape (k : Nat) (c1 : Char) (t1 u : List Char)
    (hk1 : 1 ≤ k) (hk6 : k ≤ 6) (hc1 : isPySpace c1 = false)
    (ht1 : '\n' ∉ c1 :: t1) :
    matchHeading (List.replicate k '#' ++ ' ' :: c1 :: (t1 ++ '\n' :: u)) =
      some (k + 1 + (c1 :: t1).length, c1 :: t1) := by
  have hne : c1 ≠ '\n' := by
    intro hh
    rw [hh] at hc1
    simp [isPySpace] at hc1
  unfold matchHeading
  dsimp only
  have hr : ((List.replicate k '#' ++ ' ' :: c1 :: (t1 ++ '\n' :: u)).takeWhile
      (fun c => c == '#')).length = k := by
    rw [takeWhile_hashes k (' ' :: c1 :: (t1 ++ '\n' :: u))
      (by intro c hc; simp only [List.head?_cons, Option.some.injEq] at hc;
          rw [← hc]; rfl)]
    simp
  rw [hr, if_neg (by omega)]
  have hdrop : (List.replicate k '#' ++ ' ' :: c1 :: (t1 ++ '\n' :: u)).drop k =
      ' ' :: c1 :: (t1 ++ '\n' :: u) := by
    have h0 := List.drop_left (List.replicate k '#') (' ' :: c1 :: (t1 ++ '\n' :: u))
    rwa [List.length_replicate] at h0
  rw [hdrop]
  have hw : ((' ' :: c1 :: (t1 ++ '\n' :: u)).takeWhile isPySpace).length = 1 := by
    rw [List.takeWhile_cons_of_pos (by decide),
      List.takeWhile_cons_of_neg (by rw [hc1]; exact Bool.false_ne_true)]
    rfl
  rw [hw, if_neg (by omega)]
  have hfind : ((List.range 1).map (fun x => 1 - x)).find?
      (fun l => ((' ' :: c1 :: (t1 ++ '\n' :: u)).drop l).head?.any
        (fun c => c != '\n')) = some 1 := by
    simp only [List.range, List.range.loop, List.map_cons, List.map_nil,
      List.find?_cons]
    have hd1 : (' ' :: c1 :: (t1 ++ '\n' :: u)).drop (1 - 0) =
        c1 :: (t1 ++ '\n' :: u) := rfl
    rw [hd1]
    have hb : (c1 != '\n') = true := bne_iff_ne.2 hne
    simp [hb]
  rw [hfind]
  dsimp only
  have hd1 : (' ' :: c1 :: (t1 ++ '\n' :: u)).drop 1 = c1 :: (t1 ++ '\n' :: u) := rfl
  rw [hd1]
  have htitle : (c1 :: (t1 ++ '\n' :: u)).takeWhile (fun c => c != '\n') =
      c1 :: t1 := by
    have h0 := takeWhile_no_nl (c1 :: t1) u ht1
    simpa using h0
  rw [htitle]

theorem headingLine_length (k : Nat) (title : List Char) :
    (headingLine k title).length = k + 1 + title.length := by
  simp [headingLine]
  omega

theorem findHeadingFrom_hit (t : List Char) (i : Nat) (hi : i ≤ t.length)
    (hls : i = 0 ∨ t[i - 1]? = some '\n') (len : Nat) (ti : List Char)
    (hm : matchHeading (t.drop i) = some (len, ti)) :
    findHeadingFrom t i = some (i, i + len, ti) := by
  unfold findHeadingFrom
  have harith : t.length + 1 - i = (t.length - i) + 1 := by omega
  rw [harith, List.range'_succ, List.findSome?_cons]
  rw [if_pos hls, hm]
  rfl

theorem findHeadingFrom_step (t : List Char) (i : Nat) (hi : i ≤ t.length)
    (hls : ¬ (i = 0 ∨ t[i - 1]? = some '\n')) :
    findHeadingFrom t i = findHeadingFrom t (i + 1) := by
  unfold findHeadingFrom
  have harith : t.length + 1 - i = (t.length - i) + 1 := by omega
  rw [harith, List.range'_succ, List.findSome?_cons]
  rw [if_neg hls]
  have harith2 : t.length - i = t.length + 1 - (i + 1) := by omega
  rw [harith2]

theorem parse_no_headings (t : List Char) (h0 : findHeadingFrom t 0 = none)
    (h1 : pyStrip t ≠ []) :
    parse_markdown_sections t = [(none, pyStrip t)] := by
  have hlen : 0 < t.length := by
    rcases t with _ | ⟨c, r⟩
    · exact absurd rfl h1
    · simp
  have hrun : sectionsGo t (t.length + 1) 0 none [] = [(none, pyStrip t)] := by
    simp only [sectionsGo, h0, List.drop_zero]
    rw [if_pos ⟨hlen, by simpa using h1⟩]
    rfl
  unfold parse_markdown_sections
  rw [hrun]
  rw [if_neg (by simp)]

theorem parse_all_ws (t : List Char) (h : ∀ c ∈ t, isPySpace c = true) :
    parse_markdown_sections t = [] := by
  have hstrip : pyStrip t = [] := pyStrip_all_ws t h
  have h0 : findHeadingFrom t 0 = none := by
    apply findHeadingFrom_none
    intro j c _ hc heq
    have hmem : c ∈ t := by
      rcases List.getElem?_eq_some.1 hc with ⟨hj, hv⟩
      exact hv ▸ List.getElem_mem hj
    have := h c hmem
    rw [heq] at this
    simp [isPySpace] at this
  have hrun : sectionsGo t (t.length + 1) 0 none [] = [] := by
    simp only [sectionsGo, h0, List.drop_zero]
    rw [if_neg (by rw [hstrip]; simp)]
  unfold parse_markdown_sections
  rw [hrun]
  rw [if_neg (by rw [hstrip]; simp)]

theorem sectionsGo_final (t : List Char) (fuel i : Nat) (title : Option (List Char))
    (acc : List (Option (List Char) × List Char))
    (hfind : findHeadingFrom t i = none) (hi : i < t.length)
    (hdrop : pyStrip (t.drop i) ≠ []) :
    sectionsGo t (fuel + 1) i title acc = acc ++ [(title, pyStrip (t.drop i))] := by
  simp only [sectionsGo, hfind]
  rw [if_pos ⟨hi, by simpa using hdrop⟩]

theorem findHeadingFrom_after (t : List Char) (i : Nat) (C rest : List Char)
    (hC : t = C ++ '\n' :: rest) (hiC : i = C.length) (hrest : '#' ∉ rest) :
    findHeadingFrom t i = none := by
  apply findHeadingFrom_none
  intro j c hij hc heq
  subst hC
  subst hiC
  have hCj : C.length ≤ j := hij
  rw [List.getElem?_append_right hCj] at hc
  rcases hjd : j - C.length with _ | jd
  · rw [hjd] at hc
    simp at hc
    rw [← hc] at heq
    exact absurd heq (by decide)
  · rw [hjd] at hc
    simp only [List.getElem?_cons_succ] at hc
    have hmem : c ∈ rest := by
      rcases List.getElem?_eq_some.1 hc with ⟨hj, hv⟩
      exact hv ▸ List.getElem_mem hj
    rw [heq] at hmem
    exact hrest hmem

theorem sectionsGo_step (t : List Char) (fuel i : Nat) (title : Option (List Char))
    (acc : List (Option (List Char) × List Char)) (sp e : Nat) (ti : List Char)
    (hfind : findHeadingFrom t i = some (sp, e, ti)) :
    sectionsGo t (fuel + 1) i title acc =
      sectionsGo t fuel e (some (pyStrip ti))
        (if i < sp ∧ ¬ (pyStrip ((t.drop i).take (sp - i))).isEmpty
         then acc ++ [(title, pyStrip ((t.drop i).take (sp - i)))] else acc) := by
  simp only [sectionsGo, hfind]

theorem parse_one_heading (k2 : Nat) (c2 : Char) (t2 rest : List Char)
    (hk21 : 1 ≤ k2) (hk26 : k2 ≤ 6) (hc2 : isPySpace c2 = false)
    (ht2 : '\n' ∉ c2 :: t2) (hrest : '#' ∉ rest) (hrs : pyStrip rest ≠ []) :
    parse_markdown_sections (headingLine k2 (c2 :: t2) ++ '\n' :: rest) =
      [(some (pyStrip (c2 :: t2)), pyStrip rest)] := by
  have he1 : (headingLine k2 (c2 :: t2)).length = k2 + 1 + (c2 :: t2).length :=
    headingLine_length k2 (c2 :: t2)
  have hulen : (headingLine k2 (c2 :: t2) ++ '\n' :: rest).length =
      k2 + 1 + (c2 :: t2).length + 1 + rest.length := by
    simp only [List.length_append, List.length_cons, he1]
    omega
  have hfh0 : findHeadingFrom (headingLine k2 (c2 :: t2) ++ '\n' :: rest) 0 =
      some (0, k2 + 1 + (c2 :: t2).length, c2 :: t2) := by
    have h0 := findHeadingFrom_hit (headingLine k2 (c2 :: t2) ++ '\n' :: rest) 0
      (by omega) (Or.inl rfl) (k2 + 1 + (c2 :: t2).length) (c2 :: t2) ?_
    · simpa using h0
    · rw [List.drop_zero]
      rw [show headingLine k2 (c2 :: t2) ++ '\n' :: rest =
        List.replicate k2 '#' ++ ' ' :: c2 :: (t2 ++ '\n' :: rest) from by
          simp [headingLine]]
      exact matchHeading_shape k2 c2 t2 rest hk21 hk26 hc2 ht2
  have hdropE : (headingLine k2 (c2 :: t2) ++ '\n' :: rest).drop
      (k2 + 1 + (c2 :: t2).length) = '\n' :: rest := by
    rw [← he1]
    exact List.drop_left _ _
  have hfh1 : findHeadingFrom (headingLine k2 (c2 :: t2) ++ '\n' :: rest)
      (k2 + 1 + (c2 :: t2).length) = none := by
    rw [← he1]
    exact findHeadingFrom_after _ _ (headingLine k2 (c2 :: t2)) rest rfl rfl hrest
  have hstripE : pyStrip ((headingLine k2 (c2 :: t2) ++ '\n' :: rest).drop
      (k2 + 1 + (c2 :: t2).length)) = pyStrip rest := by
    rw [hdropE]
    exact pyStrip_cons_ws '\n' rest (by decide)
  obtain ⟨m, hm⟩ : ∃ m, (headingLine k2 (c2 :: t2) ++ '\n' :: rest).length = m + 1 :=
    ⟨(headingLine k2 (c2 :: t2) ++ '\n' :: rest).length - 1, by omega⟩
  have hrun : sectionsGo (headingLine k2 (c2 :: t2) ++ '\n' :: rest)
      ((headingLine k2 (c2 :: t2) ++ '\n' :: rest).length + 1) 0 none [] =
      [(some (pyStrip (c2 :: t2)), pyStrip rest)] := by
    rw [hm]
    rw [sectionsGo_step _ (m + 1) 0 none [] 0 (k2 + 1 + (c2 :: t2).length)
      (c2 :: t2) hfh0]
    rw [if_neg (by simp)]
    rw [sectionsGo_final _ m (k2 + 1 + (c2 :: t2).length) (some (pyStrip (c2 :: t2)))
      [] hfh1 (by omega) (by rw [hstripE]; exact hrs)]
    rw [hstripE]
    rfl
  unfold parse_markdown_sections
  rw [hrun]
  rw [if_neg (by simp)]

theorem parse_two_headings (k1 k2 : Nat) (c1 c2 : Char) (t1 t2 rest : List Char)
    (hk11 : 1 ≤ k1) (hk16 : k1 ≤ 6) (hk21 : 1 ≤ k2) (hk26 : k2 ≤ 6)
    (hc1 : isPySpace c1 = false) (hc2 : isPySpace c2 = false)
    (ht1 : '\n' ∉ c1 :: t1) (ht2 : '\n' ∉ c2 :: t2)
    (hrest : '#' ∉ rest) (hrs : pyStrip rest ≠ []) :
    parse_markdown_sections (headingLine k1 (c1 :: t1) ++ '\n' ::
        (headingLine k2 (c2 :: t2) ++ '\n' :: rest)) =
      [(some (pyStrip (c2 :: t2)), pyStrip rest)] := by
  have he1 : (headingLine k1 (c1 :: t1)).length = k1 + 1 + (c1 :: t1).length :=
    headingLine_length k1 (c1 :: t1)
  have he2 : (headingLine k2 (c2 :: t2)).length = k2 + 1 + (c2 :: t2).length :=
    headingLine_length k2 (c2 :: t2)
  have htlen : (headingLine k1 (c1 :: t1) ++ '\n' ::
      (headingLine k2 (c2 :: t2) ++ '\n' :: rest)).length =
      (k1 + 1 + (c1 :: t1).length) + 1 + ((k2 + 1 + (c2 :: t2).length) + 1 + rest.length) := by
    simp only [List.length_append, List.length_cons, he1, he2]
    omega
  have hfh0 : findHeadingFrom (headingLine k1 (c1 :: t1) ++ '\n' ::
      (headingLine k2 (c2 :: t2) ++ '\n' :: rest)) 0 =
      some (0, k1 + 1 + (c1 :: t1).length, c1 :: t1) := by
    have h0 := findHeadingFrom_hit (headingLine k1 (c1 :: t1) ++ '\n' ::
      (headingLine k2 (c2 :: t2) ++ '\n' :: rest)) 0
      (by omega) (Or.inl rfl) (k1 + 1 + (c1 :: t1).length) (c1 :: t1) ?_
    · simpa using h0
    · rw [List.drop_zero]
      rw [show headingLine k1 (c1 :: t1) ++ '\n' ::
          (headingLine k2 (c2 :: t2) ++ '\n' :: rest) =
        List.replicate k1 '#' ++ ' ' :: c1 ::
          (t1 ++ '\n' :: (headingLine k2 (c2 :: t2) ++ '\n' :: rest)) from by
          simp [headingLine]]
      exact matchHeading_shape k1 c1 t1 _ hk11 hk16 hc1 ht1
  have hdropE1 : (headingLine k1 (c1 :: t1) ++ '\n' ::
      (headingLine k2 (c2 :: t2) ++ '\n' :: rest)).drop (k1 + 1 + (c1 :: t1).length) =
      '\n' :: (headingLine k2 (c2 :: t2) ++ '\n' :: rest) := by
    rw [← he1]
    exact List.drop_left _ _
  have hlast : (headingLine k1 (c1 :: t1) ++ '\n' ::
      (headingLine k2 (c2 :: t2) ++ '\n' :: rest))[k1 + 1 + (c1 :: t1).length - 1]? =
      (c1 :: t1)[t1.length]? := by
    rw [List.getElem?_append_left
      (by rw [he1]; simp only [List.length_cons]; omega)]
    unfold headingLine
    rw [List.getElem?_append_right
      (by simp only [List.length_replicate, List.length_cons]; omega)]
    rw [show k1 + 1 + (c1 :: t1).length - 1 - (List.replicate k1 '#').length =
      t1.length + 1 from by simp only [List.length_replicate, List.length_cons]; omega]
    rw [List.getElem?_cons_succ]
  have hstep : findHeadingFrom (headingLine k1 (c1 :: t1) ++ '\n' ::
      (headingLine k2 (c2 :: t2) ++ '\n' :: rest)) (k1 + 1 + (c1 :: t1).length) =
      findHeadingFrom (headingLine k1 (c1 :: t1) ++ '\n' ::
        (headingLine k2 (c2 :: t2) ++ '\n' :: rest)) (k1 + 1 + (c1 :: t1).length + 1) := by
    apply findHeadingFrom_step _ _ (by omega)
    rintro (h | h)
    · omega
    · rw [hlast] at h
      have hmem : '\n' ∈ c1 :: t1 := by
        rcases List.getElem?_eq_some.1 h with ⟨hj, hv⟩
        exact hv ▸ List.getElem_mem hj
      exact ht1 hmem
  have hnl : (headingLine k1 (c1 :: t1) ++ '\n' ::
      (headingLine k2 (c2 :: t2) ++ '\n' :: rest))[k1 + 1 + (c1 :: t1).length]? =
      some '\n' := by
    rw [show k1 + 1 + (c1 :: t1).length = (headingLine k1 (c1 :: t1)).length from he1.symm]
    rw [List.getElem?_append_right (Nat.le_refl _)]
    simp
  have hdropE1s : (headingLine k1 (c1 :: t1) ++ '\n' ::
      (headingLine k2 (c2 :: t2) ++ '\n' :: rest)).drop
      (k1 + 1 + (c1 :: t1).length + 1) =
      headingLine k2 (c2 :: t2) ++ '\n' :: rest := by
    have hdd := List.drop_drop 1 (k1 + 1 + (c1 :: t1).length)
      (headingLine k1 (c1 :: t1) ++ '\n' ::
        (headingLine k2 (c2 :: t2) ++ '\n' :: rest))
    rw [hdropE1] at hdd
    simpa using hdd.symm
  have hfh1 : findHeadingFrom (headingLine k1 (c1 :: t1) ++ '\n' ::
      (headingLine k2 (c2 :: t2) ++ '\n' :: rest)) (k1 + 1 + (c1 :: t1).length + 1) =
      some (k1 + 1 + (c1 :: t1).length + 1,
        k1 + 1 + (c1 :: t1).length + 1 + (k2 + 1 + (c2 :: t2).length), c2 :: t2) := by
    apply findHeadingFrom_hit _ _ (by omega)
      (Or.inr (by rw [Nat.add_sub_cancel]; exact hnl))
    rw [hdropE1s]
    rw [show headingLine k2 (c2 :: t2) ++ '\n' :: rest =
      List.replicate k2 '#' ++ ' ' :: c2 :: (t2 ++ '\n' :: rest) from by
        simp [headingLine]]
    exact matchHeading_shape k2 c2 t2 rest hk21 hk26 hc2 ht2
  have hC : headingLine k1 (c1 :: t1) ++ '\n' ::
      (headingLine k2 (c2 :: t2) ++ '\n' :: rest) =
      (headingLine k1 (c1 :: t1) ++ '\n' :: headingLine k2 (c2 :: t2)) ++
        '\n' :: rest := by
    simp
  have hClen : (headingLine k1 (c1 :: t1) ++ '\n' :: headingLine k2 (c2 :: t2)).length =
      k1 + 1 + (c1 :: t1).length + 1 + (k2 + 1 + (c2 :: t2).length) := by
    simp only [List.length_append, List.length_cons, he1, he2]
    omega
  have hfh2 : findHeadingFrom (headingLine k1 (c1 :: t1) ++ '\n' ::
      (headingLine k2 (c2 :: t2) ++ '\n' :: rest))
      (k1 + 1 + (c1 :: t1).length + 1 + (k2 + 1 + (c2 :: t2).length)) = none :=
    findHeadingFrom_after _ _ _ rest hC hClen.symm hrest
  have hdropE2 : (headingLine k1 (c1 :: t1) ++ '\n' ::
      (headingLine k2 (c2 :: t2) ++ '\n' :: rest)).drop
      (k1 + 1 + (c1 :: t1).length + 1 + (k2 + 1 + (c2 :: t2).length)) =
      '\n' :: rest := by
    rw [hC, ← hClen]
    exact List.drop_left _ _
  have hstripE2 : pyStrip ((headingLine k1 (c1 :: t1) ++ '\n' ::
      (headingLine k2 (c2 :: t2) ++ '\n' :: rest)).drop
      (k1 + 1 + (c1 :: t1).length + 1 + (k2 + 1 + (c2 :: t2).length))) =
      pyStrip rest := by
    rw [hdropE2]
    exact pyStrip_cons_ws '\n' rest (by decide)
  obtain ⟨m, hm⟩ : ∃ m, (headingLine k1 (c1 :: t1) ++ '\n' ::
      (headingLine k2 (c2 :: t2) ++ '\n' :: rest)).length = m + 2 :=
    ⟨(headingLine k1 (c1 :: t1) ++ '\n' ::
      (headingLine k2 (c2 :: t2) ++ '\n' :: rest)).length - 2, by omega⟩
  have hcontent : pyStrip (((headingLine k1 (c1 :: t1) ++ '\n' ::
      (headingLine k2 (c2 :: t2) ++ '\n' :: rest)).drop
      (k1 + 1 + (c1 :: t1).length)).take
      (k1 + 1 + (c1 :: t1).length + 1 - (k1 + 1 + (c1 :: t1).length))) = [] := by
    rw [hdropE1, Nat.add_sub_cancel_left]
    rfl
  have hrun : sectionsGo (headingLine k1 (c1 :: t1) ++ '\n' ::
      (headingLine k2 (c2 :: t2) ++ '\n' :: rest))
      ((headingLine k1 (c1 :: t1) ++ '\n' ::
        (headingLine k2 (c2 :: t2) ++ '\n' :: rest)).length + 1) 0 none [] =
      [(some (pyStrip (c2 :: t2)), pyStrip rest)] := by
    rw [hm]
    rw [sectionsGo_step _ (m + 2) 0 none [] 0 (k1 + 1 + (c1 :: t1).length)
      (c1 :: t1) hfh0]
    rw [if_neg (by simp)]
    rw [sectionsGo_step _ (m + 1) (k1 + 1 + (c1 :: t1).length)
      (some (pyStrip (c1 :: t1))) [] (k1 + 1 + (c1 :: t1).length + 1)
      (k1 + 1 + (c1 :: t1).length + 1 + (k2 + 1 + (c2 :: t2).length)) (c2 :: t2)
      (hstep.trans hfh1)]
    rw [if_neg (fun hh => hh.2 (by rw [hcontent]; rfl))]
    rw [sectionsGo_final _ m _ (some (pyStrip (c2 :: t2))) [] hfh2 (by omega)
      (by rw [hstripE2]; exact hrs)]
    rw [hstripE2]
    rfl
  unfold parse_markdown_sections
  rw [hrun]
  rw [if_neg (by simp)]

/-- C9: (a) a document in which the heading regex has no match and whose
stripped text is non-empty yields exactly one section `(None, text.strip())`;
(b) an entirely empty or whitespace-only document yields zero sections;
(c) a heading line immediately followed by another heading line (no
intervening content) contributes no section for the first heading: the
parse of the two-heading document equals the parse of the same document
with the first heading line deleted, and neither contains a section titled
by the first heading. -/
theorem section_splitter_edge_cases :
    (∀ t : List Char, findHeadingFrom t 0 = none → pyStrip t ≠ [] →
      parse_markdown_sections t = [(none, pyStrip t)]) ∧
    (∀ t : List Char, (∀ c ∈ t, isPySpace c = true) →
      parse_markdown_sections t = []) ∧
    (∀ (k1 k2 : Nat) (c1 c2 : Char) (t1 t2 rest : List Char),
      1 ≤ k1 → k1 ≤ 6 → 1 ≤ k2 → k2 ≤ 6 →
      isPySpace c1 = false → isPySpace c2 = false →
      '\n' ∉ c1 :: t1 → '\n' ∉ c2 :: t2 → '#' ∉ rest → pyStrip rest ≠ [] →
      parse_markdown_sections (headingLine k1 (c1 :: t1) ++ '\n' ::
          (headingLine k2 (c2 :: t2) ++ '\n' :: rest)) =
        [(some (pyStrip (c2 :: t2)), pyStrip rest)] ∧
      parse_markdown_sections (headingLine k2 (c2 :: t2) ++ '\n' :: rest) =
        [(some (pyStrip (c2 :: t2)), pyStrip rest)]) :=
  ⟨parse_no_headings, parse_all_ws,
   fun k1 k2 c1 c2 t1 t2 rest h1 h2 h3 h4 h5 h6 h7 h8 h9 h10 =>
     ⟨parse_two_headings k1 k2 c1 c2 t1 t2 rest h1 h2 h3 h4 h5 h6 h7 h8 h9 h10,
      parse_one_heading k2 c2 t2 rest h3 h4 h6 h8 h9 h10⟩⟩

/-- Witness for C9 at concrete documents (`"plain text"`, whitespace only,
and `"# A\n## B\nbody"` versus `"## B\nbody"`). -/
theorem section_splitter_edge_cases_witness :
    parse_markdown_sections ("plain text".data) = [(none, "plain text".data)] ∧
    parse_markdown_sections ("  \n ".data) = [] ∧
    (parse_markdown_sections (headingLine 1 ['A'] ++ '\n' ::
        (headingLine 2 ['B'] ++ '\n' :: "body".data)) =
      [(some ['B'], "body".data)] ∧
     parse_markdown_sections (headingLine 2 ['B'] ++ '\n' :: "body".data) =
      [(some ['B'], "body".data)]) := by
  refine ⟨?_, ?_, ?_⟩
  · have h := section_splitter_edge_cases.1 ("plain text".data) (by decide) (by decide)
    rw [h]
    rfl
  · exact section_splitter_edge_cases.2.1 ("  \n ".data) (by decide)
  · have h := section_splitter_edge_cases.2.2 1 2 'A' 'B' [] [] ("body".data)
      (by decide) (by decide) (by decide) (by decide) (by decide) (by decide)
      (by decide) (by decide) (by decide) (by decide)
    rw [h.1, h.2]
    refine ⟨rfl, rfl⟩

theorem getScore_nil (cid : String) : getScore [] cid = 0 := rfl

theorem getScore_updScore_same (m : List (String × ℚ)) (cid : String) (v : ℚ) :
    getScore (updScore m cid v) cid = getScore m cid + v := by
  induction m with
  | nil => simp [updScore, getScore]
  | cons p rest ih =>
    by_cases h : p.1 = cid
    · simp [updScore, h, getScore, List.find?_cons]
    · have hb : (p.1 == cid) = false := beq_eq_false_iff_ne.2 h
      simp only [updScore, if_neg h, getScore, List.find?_cons, hb]
      exact ih

theorem getScore_updScore_other (m : List (String × ℚ)) (cid other : String) (v : ℚ)
    (h : other ≠ cid) : getScore (updScore m cid v) other = getScore m other := by
  induction m with
  | nil =>
    have hb : (cid == other) = false := beq_eq_false_iff_ne.2 (Ne.symm h)
    simp [updScore, getScore, List.find?_cons, hb]
  | cons p rest ih =>
    by_cases hp : p.1 = cid
    · subst hp
      have hb : (p.1 == other) = false := beq_eq_false_iff_ne.2 (fun hh => h hh.symm)
      simp [updScore, getScore, List.find?_cons, hb]
    · by_cases ho : p.1 = other
      · simp [updScore, if_neg hp, getScore, List.find?_cons, ho, h]
      · have hb : (p.1 == other) = false := beq_eq_false_iff_ne.2 ho
        simp only [updScore, if_neg hp, getScore, List.find?_cons, hb]
        exact ih

theorem updScore_keys (m : List (String × ℚ)) (cid : String) (v : ℚ) :
    (updScore m cid v).map Prod.fst =
      if cid ∈ m.map Prod.fst then m.map Prod.fst else m.map Prod.fst ++ [cid] := by
  induction m with
  | nil => simp [updScore]
  | cons p rest ih =>
    by_cases h : p.1 = cid
    · simp [updScore, h]
    · simp only [updScore, if_neg h, List.map_cons, ih]
      by_cases hm : cid ∈ rest.map Prod.fst
      · rw [if_pos hm, if_pos (by simp [hm])]
      · rw [if_neg hm, if_neg (by simp [hm]; exact fun hh => h hh.symm)]
        simp

theorem updScore_keys_nodup (m : List (String × ℚ)) (cid : String) (v : ℚ)
    (h : (m.map Prod.fst).Nodup) : ((updScore m cid v).map Prod.fst).Nodup := by
  rw [updScore_keys]
  by_cases hm : cid ∈ m.map Prod.fst
  · rwa [if_pos hm]
  · rw [if_neg hm]
    rw [List.nodup_append]
    exact ⟨h, List.nodup_singleton cid, by simpa using hm⟩

theorem updScore_keys_mem (m : List (String × ℚ)) (cid other : String) (v : ℚ) :
    other ∈ (updScore m cid v).map Prod.fst ↔
      other ∈ m.map Prod.fst ∨ other = cid := by
  rw [updScore_keys]
  by_cases hm : cid ∈ m.map Prod.fst
  · rw [if_pos hm]
    constructor
    · exact fun h => Or.inl h
    · rintro (h | rfl)
      · exact h
      · exact hm
  · rw [if_neg hm]
    simp

theorem getScore_mem_of_nodup (m : List (String × ℚ)) (cid : String) (s : ℚ)
    (hnd : (m.map Prod.fst).Nodup) (hmem : (cid, s) ∈ m) : getScore m cid = s := by
  induction m with
  | nil => simp at hmem
  | cons p rest ih =>
    simp only [List.map_cons, List.nodup_cons] at hnd
    rcases List.mem_cons.1 hmem with rfl | hmem
    · simp [getScore, List.find?_cons]
    · have hp : p.1 ≠ cid := by
        intro hh
        exact hnd.1 (by rw [hh]; exact List.mem_map_of_mem Prod.fst hmem)
      have hb : (p.1 == cid) = false := beq_eq_false_iff_ne.2 hp
      simp only [getScore, List.find?_cons, hb]
      exact ih hnd.2 hmem

theorem mem_of_mem_keys (m : List (String × ℚ)) (cid : String)
    (h : cid ∈ m.map Prod.fst) : ∃ s, (cid, s) ∈ m := by
  rcases List.mem_map.1 h with ⟨p, hp, rfl⟩
  exact ⟨p.2, hp⟩

theorem rrfFoldEnum_getScore (k : Nat) :
    ∀ (L : List (String × ℚ)) (n : Nat) (m : List (String × ℚ)) (cid : String),
      (L.map Prod.fst).Nodup →
      getScore ((List.enumFrom n L).foldl
        (fun m ri => updScore m ri.2.1 (((k : ℚ) + ri.1 + 1)⁻¹)) m) cid =
      getScore m cid +
        (if cid ∈ L.map Prod.fst
         then ((k : ℚ) + (n : ℚ) + ((L.map Prod.fst).indexOf cid : ℚ) + 1)⁻¹
         else 0) := by
  intro L
  induction L with
  | nil =>
    intro n m cid _
    simp [List.enumFrom]
  | cons p L ih =>
    intro n m cid hnd
    simp only [List.map_cons, List.nodup_cons] at hnd
    simp only [List.enumFrom, List.foldl_cons, List.map_cons]
    by_cases hc : cid = p.1
    · subst hc
      rw [ih (n + 1) _ p.1 hnd.2]
      rw [if_neg (by simpa using hnd.1)]
      rw [if_pos (List.mem_cons_self _ _)]
      rw [getScore_updScore_same]
      rw [List.indexOf_cons_self]
      push_cast
      ring
    · rw [ih (n + 1) _ cid hnd.2]
      rw [getScore_updScore_other _ _ _ _ hc]
      by_cases hmem : cid ∈ L.map Prod.fst
      · rw [if_pos hmem, if_pos (List.mem_cons_of_mem _ hmem)]
        rw [List.indexOf_cons_ne _ (fun hh => hc hh.symm)]
        push_cast
        ring_nf
      · rw [if_neg hmem, if_neg (by simp [List.mem_cons, hmem, hc])]

theorem rrfFoldEnum_keys_mem (k : Nat) :
    ∀ (L : List (String × ℚ)) (n : Nat) (m : List (String × ℚ)) (cid : String),
      cid ∈ ((List.enumFrom n L).foldl
        (fun m ri => updScore m ri.2.1 (((k : ℚ) + ri.1 + 1)⁻¹)) m).map Prod.fst ↔
      cid ∈ m.map Prod.fst ∨ cid ∈ L.map Prod.fst := by
  intro L
  induction L with
  | nil =>
    intro n m cid
    simp [List.enumFrom]
  | cons p L ih =>
    intro n m cid
    simp only [List.enumFrom, List.foldl_cons]
    rw [ih (n + 1)]
    rw [updScore_keys_mem]
    simp only [List.map_cons, List.mem_cons]
    tauto

theorem rrfFoldEnum_keys_nodup (k : Nat) :
    ∀ (L : List (String × ℚ)) (n : Nat) (m : List (String × ℚ)),
      (m.map Prod.fst).Nodup →
      (((List.enumFrom n L).foldl
        (fun m ri => updScore m ri.2.1 (((k : ℚ) + ri.1 + 1)⁻¹)) m).map Prod.fst).Nodup := by
  intro L
  induction L with
  | nil =>
    intro n m h
    simpa [List.enumFrom] using h
  | cons p L ih =>
    intro n m h
    simp only [List.enumFrom, List.foldl_cons]
    exact ih (n + 1) _ (updScore_keys_nodup m p.1 _ h)

theorem rrfFoldList_eq (k : Nat) (m : List (String × ℚ)) (L : List (String × ℚ)) :
    rrfFoldList k m L = (List.enumFrom 0 L).foldl
      (fun m ri => updScore m ri.2.1 (((k : ℚ) + ri.1 + 1)⁻¹)) m := rfl

theorem rrfScores_getScore (k : Nat) :
    ∀ (lists : List (List (String × ℚ))) (m : List (String × ℚ)) (cid : String),
      (∀ L ∈ lists, (L.map Prod.fst).Nodup) →
      getScore (lists.foldl (rrfFoldList k) m) cid =
        getScore m cid + specScore k lists cid := by
  intro lists
  induction lists with
  | nil =>
    intro m cid _
    simp [specScore]
  | cons L ls ih =>
    intro m cid hnd
    simp only [List.foldl_cons]
    rw [ih _ cid (fun L2 h2 => hnd L2 (List.mem_cons_of_mem L h2))]
    rw [rrfFoldList_eq]
    rw [rrfFoldEnum_getScore k L 0 m cid (hnd L (List.mem_cons_self L ls))]
    simp only [specScore, List.map_cons, List.sum_cons]
    by_cases hmem : cid ∈ L.map Prod.fst
    · rw [if_pos hmem, if_pos hmem]
      push_cast
      ring
    · rw [if_neg hmem, if_neg hmem]
      ring

theorem rrfScores_keys_mem (k : Nat) :
    ∀ (lists : List (List (String × ℚ))) (m : List (String × ℚ)) (cid : String),
      cid ∈ ((lists.foldl (rrfFoldList k) m).map Prod.fst) ↔
        cid ∈ m.map Prod.fst ∨ ∃ L ∈ lists, cid ∈ L.map Prod.fst := by
  intro lists
  induction lists with
  | nil =>
    intro m cid
    simp
  | cons L ls ih =>
    intro m cid
    simp only [List.foldl_cons]
    rw [ih]
    rw [rrfFoldList_eq, rrfFoldEnum_keys_mem]
    simp only [List.mem_cons]
    constructor
    · rintro ((h | h) | ⟨L2, h2, h3⟩)
      · exact Or.inl h
      · exact Or.inr ⟨L, Or.inl rfl, h⟩
      · exact Or.inr ⟨L2, Or.inr h2, h3⟩
    · rintro (h | ⟨L2, (rfl | h2), h3⟩)
      · exact Or.inl (Or.inl h)
      · exact Or.inl (Or.inr h3)
      · exact Or.inr ⟨L2, h2, h3⟩

theorem rrfScores_keys_nodup (k : Nat) :
    ∀ (lists : List (List (String × ℚ))) (m : List (String × ℚ)),
      (m.map Prod.fst).Nodup →
      ((lists.foldl (rrfFoldList k) m).map Prod.fst).Nodup := by
  intro lists
  induction lists with
  | nil =>
    intro m h
    exact h
  | cons L ls ih =>
    intro m h
    simp only [List.foldl_cons]
    exact ih _ (by rw [rrfFoldList_eq]; exact rrfFoldEnum_keys_nodup k L 0 m h)

theorem insertScoreDesc_perm (p : String × ℚ) (l : List (String × ℚ)) :
    List.Perm (insertScoreDesc p l) (p :: l) := by
  induction l with
  | nil => exact List.Perm.refl _
  | cons q rest ih =>
    unfold insertScoreDesc
    by_cases h : q.2 ≤ p.2
    · rw [if_pos h]
    · rw [if_neg h]
      exact (List.Perm.cons q ih).trans (List.Perm.swap p q rest)

theorem sortScoresDesc_perm (l : List (String × ℚ)) :
    List.Perm (sortScoresDesc l) l := by
  induction l with
  | nil => exact List.Perm.refl _
  | cons p rest ih =>
    unfold sortScoresDesc
    exact (insertScoreDesc_perm p (sortScoresDesc rest)).trans (List.Perm.cons p ih)

theorem insertScoreDesc_sorted (p : String × ℚ) (l : List (String × ℚ))
    (h : l.Pairwise (fun a b => b.2 ≤ a.2)) :
    (insertScoreDesc p l).Pairwise (fun a b => b.2 ≤ a.2) := by
  induction l with
  | nil => simp [insertScoreDesc]
  | cons q rest ih =>
    rw [List.pairwise_cons] at h
    unfold insertScoreDesc
    by_cases hq : q.2 ≤ p.2
    · rw [if_pos hq]
      rw [List.pairwise_cons]
      constructor
      · intro b hb
        rcases List.mem_cons.1 hb with rfl | hb
        · exact hq
        · exact le_trans (h.1 b hb) hq
      · rw [List.pairwise_cons]
        exact h
    · rw [if_neg hq]
      rw [List.pairwise_cons]
      constructor
      · intro b hb
        have hb2 : b ∈ p :: rest := (insertScoreDesc_perm p rest).mem_iff.1 hb
        rcases List.mem_cons.1 hb2 with rfl | hb2
        · exact le_of_not_le hq
        · exact h.1 b hb2
      · exact ih h.2

theorem sortScoresDesc_sorted (l : List (String × ℚ)) :
    (sortScoresDesc l).Pairwise (fun a b => b.2 ≤ a.2) := by
  induction l with
  | nil => simp [sortScoresDesc]
  | cons p rest ih => exact insertScoreDesc_sorted p _ ih

theorem rrf_def_eq (lists : List (List (String × ℚ))) (k : Nat) :
    reciprocal_rank_fusion lists k = sortScoresDesc (lists.foldl (rrfFoldList k) []) :=
  rfl

/-- C3: under the claim presupposition that each ranked list carries each id
at most once, every fused pair carries exactly the score
`Σ over lists containing the id of 1/(k + rank + 1)` (zero-based rank, exact
rational arithmetic in place of the code floats); the output is all distinct
ids — one entry per id appearing in at least one list, sorted by score
descending (ties resolved deterministically: the function is pure, and the
stable sort keeps first-insertion order); an id ranked first in every one of
the lists scores exactly `n/(k+1)` for `n` lists; and fusing lists that are
all empty yields the empty result. -/
theorem rrf_spec (lists : List (List (String × ℚ))) (k : Nat) :
    ((∀ L ∈ lists, (L.map Prod.fst).Nodup) →
      (∀ p ∈ reciprocal_rank_fusion lists k, p.2 = specScore k lists p.1) ∧
      ((reciprocal_rank_fusion lists k).map Prod.fst).Nodup ∧
      (∀ cid : String, cid ∈ (reciprocal_rank_fusion lists k).map Prod.fst ↔
        ∃ L ∈ lists, cid ∈ L.map Prod.fst) ∧
      (reciprocal_rank_fusion lists k).Pairwise (fun a b => b.2 ≤ a.2)) ∧
    (∀ cid : String, lists ≠ [] →
      (∀ L ∈ lists, (L.map Prod.fst).Nodup ∧ (L.map Prod.fst).head? = some cid) →
      (cid, (lists.length : ℚ) / ((k : ℚ) + 1)) ∈ reciprocal_rank_fusion lists k) ∧
    ((∀ L ∈ lists, L = []) → reciprocal_rank_fusion lists k = []) := by
  have hperm : List.Perm (reciprocal_rank_fusion lists k)
      (lists.foldl (rrfFoldList k) []) := by
    rw [rrf_def_eq]
    exact sortScoresDesc_perm _
  refine ⟨fun hnd => ⟨?_, ?_, ?_, ?_⟩, ?_, ?_⟩
  · intro p hp
    have hpf : p ∈ lists.foldl (rrfFoldList k) [] := hperm.mem_iff.1 hp
    have hknd : ((lists.foldl (rrfFoldList k) []).map Prod.fst).Nodup :=
      rrfScores_keys_nodup k lists [] (by simp)
    have h1 : getScore (lists.foldl (rrfFoldList k) []) p.1 = p.2 :=
      getScore_mem_of_nodup _ p.1 p.2 hknd hpf
    have h2 := rrfScores_getScore k lists [] p.1 hnd
    rw [getScore_nil, zero_add] at h2
    rw [← h1, h2]
  · have hknd : ((lists.foldl (rrfFoldList k) []).map Prod.fst).Nodup :=
      rrfScores_keys_nodup k lists [] (by simp)
    exact ((hperm.map Prod.fst).nodup_iff).2 hknd
  · intro cid
    rw [(hperm.map Prod.fst).mem_iff]
    rw [rrfScores_keys_mem]
    simp
  · rw [rrf_def_eq]
    exact sortScoresDesc_sorted _
  · intro cid hne hall
    have hnd : ∀ L ∈ lists, (L.map Prod.fst).Nodup := fun L h => (hall L h).1
    have hmemkeys : cid ∈ (lists.foldl (rrfFoldList k) []).map Prod.fst := by
      rw [rrfScores_keys_mem]
      right
      rcases lists with _ | ⟨L0, ls⟩
      · exact absurd rfl hne
      · refine ⟨L0, List.mem_cons_self _ _, ?_⟩
        have hh := (hall L0 (List.mem_cons_self _ _)).2
        rcases hk : L0.map Prod.fst with _ | ⟨h0, tl⟩
        · rw [hk] at hh; simp at hh
        · rw [hk] at hh
          simp only [List.head?_cons, Option.some.injEq] at hh
          rw [hh]
          exact List.mem_cons_self _ _
    obtain ⟨sc, hsc⟩ := mem_of_mem_keys _ cid hmemkeys
    have hknd : ((lists.foldl (rrfFoldList k) []).map Prod.fst).Nodup :=
      rrfScores_keys_nodup k lists [] (by simp)
    have hscore : getScore (lists.foldl (rrfFoldList k) []) cid = sc :=
      getScore_mem_of_nodup _ cid sc hknd hsc
    have h2 := rrfScores_getScore k lists [] cid hnd
    rw [getScore_nil, zero_add, hscore] at h2
    have hspec : specScore k lists cid = (lists.length : ℚ) / ((k : ℚ) + 1) := by
      unfold specScore
      have hmapc : lists.map (fun L =>
          if cid ∈ L.map Prod.fst
          then ((k : ℚ) + ((L.map Prod.fst).indexOf cid : ℚ) + 1)⁻¹ else 0) =
          lists.map (fun _ => ((k : ℚ) + 1)⁻¹) := by
        apply List.map_congr_left
        intro L hL
        have hh := (hall L hL).2
        rcases hk : L.map Prod.fst with _ | ⟨h0, tl⟩
        · rw [hk] at hh; simp at hh
        · rw [hk] at hh
          simp only [List.head?_cons, Option.some.injEq] at hh
          subst hh
          rw [if_pos (List.mem_cons_self _ _)]
          rw [List.indexOf_cons_self]
          norm_num
      rw [hmapc]
      rw [List.map_const']
      rw [List.sum_replicate]
      rw [nsmul_eq_mul]
      rw [div_eq_mul_inv]
    rw [hspec] at h2
    subst h2
    exact hperm.mem_iff.2 hsc
  · intro hall
    have hgen : ∀ (lists2 : List (List (String × ℚ))), (∀ L ∈ lists2, L = []) →
        ∀ m, lists2.foldl (rrfFoldList k) m = m := by
      intro lists2
      induction lists2 with
      | nil => intro _ m; rfl
      | cons L ls ih =>
        intro hall2 m
        rw [List.foldl_cons, hall2 L (List.mem_cons_self _ _)]
        exact ih (fun L2 h2 => hall2 L2 (List.mem_cons_of_mem L h2)) m
    rw [rrf_def_eq, hgen lists hall []]
    rfl

/-- Witness for C3 at concrete ranked lists. -/
theorem rrf_spec_witness :
    (∀ p ∈ reciprocal_rank_fusion
        [[("a", (9 : ℚ)/10), ("b", (8 : ℚ)/10)],
         [("b", (95 : ℚ)/100), ("a", (85 : ℚ)/100)]] 60,
      p.2 = specScore 60
        [[("a", (9 : ℚ)/10), ("b", (8 : ℚ)/10)],
         [("b", (95 : ℚ)/100), ("a", (85 : ℚ)/100)]] p.1) ∧
    ("a", (2 : ℚ) / (60 + 1)) ∈ reciprocal_rank_fusion
      [[("a", (1 : ℚ)), ("c", (2 : ℚ))], [("a", (3 : ℚ)), ("d", (4 : ℚ))]] 60 ∧
    reciprocal_rank_fusion [[], []] 60 = [] := by
  refine ⟨((rrf_spec _ 60).1 (by decide)).1, ?_, (rrf_spec [[], []] 60).2.2 (by decide)⟩
  have h := (rrf_spec [[("a", (1 : ℚ)), ("c", (2 : ℚ))],
    [("a", (3 : ℚ)), ("d", (4 : ℚ))]] 60).2.1 "a" (by decide) (by decide)
  simpa using h

theorem find?_key_append (l1 l2 : List (String × ℚ)) (cid : String)
    (h : ∀ q ∈ l1, q.1 ≠ cid) :
    (l1 ++ l2).find? (fun q => q.1 == cid) = l2.find? (fun q => q.1 == cid) := by
  induction l1 with
  | nil => rfl
  | cons p l1 ih =>
    rw [List.cons_append, List.find?_cons]
    rw [beq_eq_false_iff_ne.2 (h p (List.mem_cons_self _ _))]
    exact ih (fun q hq => h q (List.mem_cons_of_mem p hq))

theorem dictGet_cons_self (p : String × ℚ) (rest : List (String × ℚ))
    (h : p.1 ∉ rest.map Prod.fst) : dictGet (p :: rest) p.1 = p.2 := by
  unfold dictGet
  rw [List.reverse_cons]
  rw [find?_key_append _ _ _ (by
    intro q hq heq
    exact h (heq ▸ List.mem_map_of_mem Prod.fst (List.mem_reverse.1 hq)))]
  simp [List.find?_cons]

theorem dictGet_cons_ne (p : String × ℚ) (rest : List (String × ℚ)) (cid : String)
    (h : cid ≠ p.1) : dictGet (p :: rest) cid = dictGet rest cid := by
  unfold dictGet
  rw [List.reverse_cons]
  have hfind : (rest.reverse ++ [p]).find? (fun q => q.1 == cid) =
      rest.reverse.find? (fun q => q.1 == cid) ∨
      ((rest.reverse ++ [p]).find? (fun q => q.1 == cid) = none ∧
       rest.reverse.find? (fun q => q.1 == cid) = none) := by
    induction rest.reverse with
    | nil =>
      right
      constructor
      · simp [List.find?_cons, beq_eq_false_iff_ne.2 (fun hh => h hh.symm)]
      · rfl
    | cons q l ih =>
      rw [List.cons_append, List.find?_cons, List.find?_cons]
      by_cases hq : (q.1 == cid) = true
      · rw [hq]
        left
        rfl
      · rw [Bool.not_eq_true] at hq
        rw [hq]
        exact ih
  rcases hfind with hfind | ⟨h1, h2⟩
  · rw [hfind]
  · rw [h1, h2]

theorem filterMap_congr_mem {α β : Type} (l : List α) (f g : α → Option β)
    (h : ∀ a ∈ l, f a = g a) : l.filterMap f = l.filterMap g := by
  induction l with
  | nil => rfl
  | cons a l ih =>
    rw [List.filterMap_cons, List.filterMap_cons]
    rw [h a (List.mem_cons_self _ _)]
    rw [ih (fun b hb => h b (List.mem_cons_of_mem a hb))]

/-- The code path of `search_docs` — resolve `chunk_ids` in order, look each
score up in `dict(combined)` — equals the reference resolution carrying each
pair's own score, provided the id list has no duplicates. -/
theorem resolve_eq (env : SearchEnv) (pairs : List (String × ℚ))
    (hnd : (pairs.map Prod.fst).Nodup) :
    (pairs.map Prod.fst).filterMap (fun cid => (env.fetch cid).map (fun r =>
      { chunk_id := cid, source := r.source, title := r.title, content := r.content,
        chunk_index := r.chunk_index, score := dictGet pairs cid : SearchResult })) =
    resolvePairs env pairs := by
  induction pairs with
  | nil => rfl
  | cons p rest ih =>
    simp only [List.map_cons, List.nodup_cons] at hnd
    rw [List.map_cons, List.filterMap_cons]
    have hcongr : (rest.map Prod.fst).filterMap (fun cid => (env.fetch cid).map (fun r =>
        { chunk_id := cid, source := r.source, title := r.title, content := r.content,
          chunk_index := r.chunk_index, score := dictGet (p :: rest) cid : SearchResult })) =
        resolvePairs env rest := by
      rw [filterMap_congr_mem _ _ (fun cid => (env.fetch cid).map (fun r =>
        { chunk_id := cid, source := r.source, title := r.title, content := r.content,
          chunk_index := r.chunk_index, score := dictGet rest cid : SearchResult }))]
      · exact ih hnd.2
      · intro cid hcid
        have hne : cid ≠ p.1 := fun hh => hnd.1 (hh ▸ hcid)
        rw [dictGet_cons_ne p rest cid hne]
    rw [hcongr]
    rw [dictGet_cons_self p rest hnd.1]
    unfold resolvePairs
    rw [List.filterMap_cons]

theorem mem_resolvePairs (env : SearchEnv) (pairs : List (String × ℚ))
    (r : SearchResult) (h : r ∈ resolvePairs env pairs) :
    (r.chunk_id, r.score) ∈ pairs := by
  unfold resolvePairs at h
  rcases List.mem_filterMap.1 h with ⟨p, hp, hmap⟩
  rcases Option.map_eq_some'.1 hmap with ⟨row, _, hrow⟩
  have h1 : r.chunk_id = p.1 := by rw [← hrow]
  have h2 : r.score = p.2 := by rw [← hrow]
  rw [h1, h2]
  exact hp

theorem mem_sourceFilterPass (sf : Option String) (l : List SearchResult)
    (r : SearchResult) (h : r ∈ sourceFilterPass sf l) : r ∈ l := by
  rcases sf with _ | str
  · exact h
  · unfold sourceFilterPass at h
    dsimp only at h
    by_cases hs : str = ""
    · rwa [if_pos hs] at h
    · rw [if_neg hs] at h
      exact (List.mem_filter.1 h).1

theorem rrf_keys_nodup (lists : List (List (String × ℚ))) (k : Nat) :
    ((reciprocal_rank_fusion lists k).map Prod.fst).Nodup := by
  have hperm : List.Perm (reciprocal_rank_fusion lists k)
      (lists.foldl (rrfFoldList k) []) := by
    rw [rrf_def_eq]
    exact sortScoresDesc_perm _
  exact ((hperm.map Prod.fst).nodup_iff).2 (rrfScores_keys_nodup k lists [] (by simp))

theorem search_docs_single (env : SearchEnv) (q : String) (lim : Nat) (mode : String)
    (sf : Option String) (L : List (String × ℚ))
    (hmode : mode ∈ VALID_SEARCH_MODES)
    (hsig : signalLists env q lim mode = [L])
    (hnd : (L.map Prod.fst).Nodup) :
    search_docs env q lim mode sf =
      Except.ok (sourceFilterPass sf (resolvePairs env (L.take lim))) := by
  have hnd2 : ((L.take lim).map Prod.fst).Nodup := by
    rw [List.map_take]
    exact hnd.sublist (List.take_sublist _ _)
  unfold search_docs
  rw [if_neg (not_not_intro hmode), hsig]
  dsimp only
  rw [if_neg (by simp)]
  rw [if_pos (by simp)]
  dsimp only [List.headI]
  show Except.ok (sourceFilterPass sf _) = _
  rw [resolve_eq env (L.take lim) hnd2]

theorem search_docs_impl_single (env : SearchEnv) (q : String) (lim : Nat)
    (mode : String) (L : List (String × ℚ))
    (hsig : signalLists env q lim mode = [L])
    (hnd : (L.map Prod.fst).Nodup) :
    search_docs_impl env q lim mode = resolvePairs env (L.take lim) := by
  have hnd2 : ((L.take lim).map Prod.fst).Nodup := by
    rw [List.map_take]
    exact hnd.sublist (List.take_sublist _ _)
  unfold search_docs_impl
  rw [hsig]
  dsimp only
  rw [if_neg (by simp)]
  rw [if_pos (by simp)]
  dsimp only [List.headI]
  exact resolve_eq env (L.take lim) hnd2

theorem search_docs_fused (env : SearchEnv) (q : String) (lim : Nat) (mode : String)
    (sf : Option String) (L1 L2 : List (String × ℚ))
    (hmode : mode ∈ VALID_SEARCH_MODES)
    (hsig : signalLists env q lim mode = [L1, L2]) :
    search_docs env q lim mode sf =
      Except.ok (sourceFilterPass sf (resolvePairs env
        ((reciprocal_rank_fusion [L1, L2] 60).take lim))) := by
  have hnd2 : (((reciprocal_rank_fusion [L1, L2] 60).take lim).map Prod.fst).Nodup := by
    rw [List.map_take]
    exact (rrf_keys_nodup [L1, L2] 60).sublist (List.take_sublist _ _)
  unfold search_docs
  rw [if_neg (not_not_intro hmode), hsig]
  dsimp only
  rw [if_neg (by simp)]
  rw [if_neg (by simp)]
  show Except.ok (sourceFilterPass sf _) = _
  rw [resolve_eq env _ hnd2]

theorem signalLists_nonempty (env : SearchEnv) (q : String) (lim : Nat)
    (mode : String) : ∀ L ∈ signalLists env q lim mode, L ≠ [] := by
  intro L hL
  unfold signalLists at hL
  rcases List.mem_append.1 hL with h | h
  · by_cases hc : (mode = "keyword" ∨ mode = "hybrid") ∧ env.fts q lim ≠ []
    · rw [if_pos hc] at h
      rw [List.mem_singleton.1 h]
      exact hc.2
    · rw [if_neg hc] at h
      exact absurd h (List.not_mem_nil L)
  · by_cases hc : (mode = "semantic" ∨ mode = "hybrid") ∧ env.hasVec = true ∧
        env.vec q lim ≠ []
    · rw [if_pos hc] at h
      rw [List.mem_singleton.1 h]
      exact hc.2.2
    · rw [if_neg hc] at h
      exact absurd h (List.not_mem_nil L)

/-- C6: for a valid mode, when the orchestrators gather exactly one non-empty
signal list (each gathered list is non-empty by construction, last conjunct),
both db.py's `search_docs` and mcp_server.py's `search_docs_impl` return that
list truncated to `limit` and resolved against the store with each record
carrying the pair's raw signal score unchanged — no rank fusion — and every
returned record's `(chunk_id, score)` is literally a pair of the signal list;
fusion (`reciprocal_rank_fusion` with k = 60) is applied exactly when two
signal lists were gathered.  The duplicate-free-ids hypothesis reflects the
SQL signals keying results by chunk id. -/
theorem single_signal_no_fusion (env : SearchEnv) (q : String) (lim : Nat)
    (mode : String) (sf : Option String) (hmode : mode ∈ VALID_SEARCH_MODES) :
    (∀ L, signalLists env q lim mode = [L] → (L.map Prod.fst).Nodup →
      search_docs env q lim mode sf =
        Except.ok (sourceFilterPass sf (resolvePairs env (L.take lim))) ∧
      search_docs_impl env q lim mode = resolvePairs env (L.take lim) ∧
      ∀ r ∈ sourceFilterPass sf (resolvePairs env (L.take lim)),
        (r.chunk_id, r.score) ∈ L) ∧
    (∀ L1 L2, signalLists env q lim mode = [L1, L2] →
      search_docs env q lim mode sf =
        Except.ok (sourceFilterPass sf (resolvePairs env
          ((reciprocal_rank_fusion [L1, L2] 60).take lim)))) ∧
    (∀ L ∈ signalLists env q lim mode, L ≠ []) := by
  refine ⟨?_, ?_, signalLists_nonempty env q lim mode⟩
  · intro L hsig hnd
    refine ⟨search_docs_single env q lim mode sf L hmode hsig hnd,
            search_docs_impl_single env q lim mode L hsig hnd, ?_⟩
    intro r hr
    have h1 : r ∈ resolvePairs env (L.take lim) := mem_sourceFilterPass sf _ r hr
    have h2 : (r.chunk_id, r.score) ∈ L.take lim := mem_resolvePairs env _ r h1
    exact List.mem_of_mem_take h2
  · intro L1 L2 hsig
    exact search_docs_fused env q lim mode sf L1 L2 hmode hsig

theorem single_signal_no_fusion_witness :
    "keyword" ∈ VALID_SEARCH_MODES ∧
    signalLists envEx "q" 5 "keyword" = [[("c", 3), ("a", 2), ("b", 1)]] ∧
    search_docs envEx "q" 5 "keyword" none =
      Except.ok (sourceFilterPass none
        (resolvePairs envEx ([("c", (3 : ℚ)), ("a", 2), ("b", 1)].take 5))) ∧
    search_docs_impl envEx "q" 5 "keyword" =
      resolvePairs envEx ([("c", (3 : ℚ)), ("a", 2), ("b", 1)].take 5) := by
  have h := (single_signal_no_fusion envEx "q" 5 "keyword" none (by decide)).1
    [("c", 3), ("a", 2), ("b", 1)] rfl (by decide)
  exact ⟨by decide, rfl, h.1, h.2.1⟩

theorem pyTokens_ws_cons (c : Char) (r : List Char) (hc : isPySpace c = true) :
    pyTokens (c :: r) = pyTokens r := by
  rw [pyTokens_cons, if_pos hc]

theorem pyTokens_ws_front (s : List Char) (hws : ∀ c ∈ s, isPySpace c = true) :
    ∀ r, pyTokens (s ++ r) = pyTokens r := by
  induction s with
  | nil => intro r; rfl
  | cons c t ih =>
    intro r
    rw [List.cons_append, pyTokens_ws_cons c _ (hws c (List.mem_cons_self _ _))]
    exact ih (fun d hd => hws d (List.mem_cons_of_mem c hd)) r

theorem takeWhile_append_all (p : Char → Bool) (t x : List Char)
    (h : ∀ c ∈ t, p c = true) : (t ++ x).takeWhile p = t ++ x.takeWhile p := by
  induction t with
  | nil => rfl
  | cons c t ih =>
    rw [List.cons_append, List.takeWhile_cons_of_pos (h c (List.mem_cons_self _ _))]
    rw [ih (fun d hd => h d (List.mem_cons_of_mem c hd))]
    rfl

theorem dropWhile_append_all (p : Char → Bool) (t x : List Char)
    (h : ∀ c ∈ t, p c = true) : (t ++ x).dropWhile p = x.dropWhile p := by
  induction t with
  | nil => rfl
  | cons c t ih =>
    rw [List.cons_append, List.dropWhile_cons_of_pos (h c (List.mem_cons_self _ _))]
    exact ih (fun d hd => h d (List.mem_cons_of_mem c hd))

theorem dropWhile_head_false (p : Char → Bool) :
    ∀ (l : List Char) (c : Char) (t : List Char), l.dropWhile p = c :: t → p c = false := by
  intro l
  induction l with
  | nil => intro c t h; exact absurd h (by simp)
  | cons a l ih =>
    intro c t h
    by_cases ha : p a = true
    · rw [List.dropWhile_cons_of_pos ha] at h
      exact ih c t h
    · rw [Bool.not_eq_true] at ha
      rw [List.dropWhile_cons, ha] at h
      simp only [Bool.false_eq_true, if_false] at h
      injection h with h1 _
      rw [← h1]
      exact ha

theorem takeWhile_eq_self_of_dropWhile_nil (p : Char → Bool) (l : List Char)
    (h : l.dropWhile p = []) : l.takeWhile p = l := by
  have ht := List.takeWhile_append_dropWhile (p := p) (l := l)
  rw [h, List.append_nil] at ht
  exact ht

theorem pyTokens_glue_aux (sep : List Char) (hne : sep ≠ [])
    (hws : ∀ c ∈ sep, isPySpace c = true) :
    ∀ (n : Nat) (p rest : List Char), p.length ≤ n →
      pyTokens (p ++ (sep ++ rest)) = pyTokens p ++ pyTokens rest := by
  intro n
  induction n with
  | zero =>
    intro p rest hp
    have : p = [] := List.length_eq_zero.1 (Nat.le_zero.1 hp)
    subst this
    rw [List.nil_append, pyTokens_nil, List.nil_append]
    exact pyTokens_ws_front sep hws rest
  | succ n ih =>
    intro p rest hp
    cases p with
    | nil =>
      rw [List.nil_append, pyTokens_nil, List.nil_append]
      exact pyTokens_ws_front sep hws rest
    | cons c q =>
      rw [List.cons_append, pyTokens_cons, pyTokens_cons c q]
      by_cases hc : isPySpace c = true
      · rw [if_pos hc, if_pos hc]
        simp only [List.length_cons] at hp
        exact ih q rest (by omega)
      · rw [if_neg hc, if_neg hc]
        have hq : q.takeWhile (fun d => !isPySpace d) ++
            q.dropWhile (fun d => !isPySpace d) = q :=
          List.takeWhile_append_dropWhile ..
        have htw : ∀ d ∈ q.takeWhile (fun d => !isPySpace d), isPySpace d = false := by
          intro d hd
          have := List.mem_takeWhile_imp hd
          simpa using this
        cases hd : q.dropWhile (fun d => !isPySpace d) with
        | nil =>
          have htq : q.takeWhile (fun d => !isPySpace d) = q :=
            takeWhile_eq_self_of_dropWhile_nil _ q hd
          have hqall : ∀ d ∈ q, isPySpace d = false := by
            intro d hdq
            exact htw d (by rw [htq]; exact hdq)
          obtain ⟨s0, sep2, hsep⟩ : ∃ s0 sep2, sep = s0 :: sep2 := by
            cases sep with
            | nil => exact absurd rfl hne
            | cons s0 sep2 => exact ⟨s0, sep2, rfl⟩
          have hs0 : isPySpace s0 = true := by
            rw [hsep] at hws
            exact hws s0 (List.mem_cons_self _ _)
          have h1 : (q ++ (sep ++ rest)).takeWhile (fun d => !isPySpace d) = q := by
            rw [takeWhile_append_all _ q _ (fun d hd => by simp [hqall d hd]), hsep,
              List.cons_append, List.takeWhile_cons_of_neg (by simp [hs0]),
              List.append_nil]
          have h2 : (q ++ (sep ++ rest)).dropWhile (fun d => !isPySpace d) =
              sep ++ rest := by
            rw [dropWhile_append_all _ q _ (fun d hd => by simp [hqall d hd]), hsep,
              List.cons_append, List.dropWhile_cons_of_neg (by simp [hs0])]
          rw [h1, h2, htq, pyTokens_nil, pyTokens_ws_front sep hws rest]
          rfl
        | cons d t =>
          have hdws : isPySpace d = true := by
            have := dropWhile_head_false (fun d => !isPySpace d) q d t hd
            simpa using this
          have hqsplit : q = q.takeWhile (fun d => !isPySpace d) ++ (d :: t) := by
            rw [← hd]
            exact hq.symm
          have h1 : (q ++ (sep ++ rest)).takeWhile (fun d => !isPySpace d) =
              q.takeWhile (fun d => !isPySpace d) := by
            conv_lhs => rw [hqsplit]
            rw [List.append_assoc,
              takeWhile_append_all _ _ _ (fun d hd => by simp [htw d hd]), List.cons_append,
              List.takeWhile_cons_of_neg (by simp [hdws]), List.append_nil]
          have h2 : (q ++ (sep ++ rest)).dropWhile (fun d => !isPySpace d) =
              d :: (t ++ (sep ++ rest)) := by
            conv_lhs => rw [hqsplit]
            rw [List.append_assoc,
              dropWhile_append_all _ _ _ (fun d hd => by simp [htw d hd]), List.cons_append,
              List.dropWhile_cons_of_neg (by simp [hdws])]
          have hlen : t.length ≤ n := by
            have h3 : q.length = (q.takeWhile (fun d => !isPySpace d)).length + (t.length + 1) := by
              conv_lhs => rw [hqsplit]
              simp only [List.length_append, List.length_cons]
            simp only [List.length_cons] at hp
            omega
          rw [h1, h2, pyTokens_ws_cons d _ hdws, pyTokens_ws_cons d _ hdws,
            ih t rest hlen]
          rfl

theorem pyTokens_glue (sep : List Char) (hne : sep ≠ [])
    (hws : ∀ c ∈ sep, isPySpace c = true) (p rest : List Char) :
    pyTokens (p ++ (sep ++ rest)) = pyTokens p ++ pyTokens rest :=
  pyTokens_glue_aux sep hne hws p.length p rest le_rfl

theorem pyTokens_sep1 (c : Char) (hc : isPySpace c = true) (p rest : List Char) :
    pyTokens (p ++ c :: rest) = pyTokens p ++ pyTokens rest := by
  have h := pyTokens_glue [c] (by simp) (by intro d hd; rw [List.mem_singleton.1 hd]; exact hc) p rest
  rwa [List.singleton_append] at h

theorem pyTokens_append_ws_right (a b : List Char)
    (hws : ∀ c ∈ b, isPySpace c = true) : pyTokens (a ++ b) = pyTokens a := by
  cases b with
  | nil => rw [List.append_nil]
  | cons c t =>
    have h := pyTokens_glue (c :: t) (by simp) hws a []
    rw [List.append_nil, pyTokens_nil, List.append_nil] at h
    exact h

theorem pyTokens_pyStrip (l : List Char) : pyTokens (pyStrip l) = pyTokens l := by
  unfold pyStrip
  have hfront : pyTokens (l.dropWhile isPySpace) = pyTokens l := by
    conv_rhs => rw [← List.takeWhile_append_dropWhile (p := isPySpace) (l := l)]
    rw [pyTokens_ws_front (l.takeWhile isPySpace)
      (fun c hc => List.mem_takeWhile_imp hc) (l.dropWhile isPySpace)]
  set m := l.dropWhile isPySpace
  have hm : m = (m.reverse.dropWhile isPySpace).reverse ++
      (m.reverse.takeWhile isPySpace).reverse := by
    conv_lhs => rw [← List.reverse_reverse m,
      ← List.takeWhile_append_dropWhile (p := isPySpace) (l := m.reverse)]
    rw [List.reverse_append]
  have hws : ∀ c ∈ (m.reverse.takeWhile isPySpace).reverse, isPySpace c = true := by
    intro c hc
    exact List.mem_takeWhile_imp (List.mem_reverse.1 hc)
  rw [← hfront]
  conv_rhs => rw [hm]
  rw [pyTokens_append_ws_right _ _ hws]

theorem pyTokens_nil_of_strip_empty (l : List Char) (h : (pyStrip l).isEmpty = true) :
    pyTokens l = [] := by
  rw [← pyTokens_pyStrip l, List.isEmpty_iff.1 h]
  rfl

theorem GluedWS_cons_left (c : Char) (p : List Char) (ps : List (List Char))
    (rest : List Char) (h : GluedWS (p :: ps) rest) :
    GluedWS ((c :: p) :: ps) (c :: rest) := by
  cases h with
  | single => exact GluedWS.single (c :: p)
  | cons _ sep ps2 rest2 hne hws htl =>
    have : c :: (p ++ (sep ++ rest2)) = (c :: p) ++ (sep ++ rest2) := rfl
    rw [this]
    exact GluedWS.cons (c :: p) sep ps rest2 hne hws htl

theorem splitParasGo_ne_nil (fuel : Nat) (l : List Char) : splitParasGo fuel l ≠ [] := by
  cases fuel with
  | zero => cases l <;> simp [splitParasGo]
  | succ f =>
    cases l with
    | nil => simp [splitParasGo]
    | cons c r =>
      simp only [splitParasGo]
      by_cases hc : (c == '\n' && r.head?.any (· == '\n')) = true
      · rw [if_pos hc]
        simp
      · rw [if_neg hc]
        cases splitParasGo f r <;> simp

theorem splitSentsGo_ne_nil (fuel : Nat) (b : Bool) (l : List Char) :
    splitSentsGo fuel b l ≠ [] := by
  cases fuel with
  | zero => cases l <;> simp [splitSentsGo]
  | succ f =>
    cases l with
    | nil => simp [splitSentsGo]
    | cons c r =>
      simp only [splitSentsGo]
      by_cases hc : (isPySpace c && b) = true
      · rw [if_pos hc]
        simp
      · rw [if_neg hc]
        cases splitSentsGo f (c == '.' || c == '!' || c == '?') r <;> simp

theorem glued_splitParas_aux :
    ∀ (n : Nat) (l : List Char), l.length ≤ n → GluedWS (splitParas l) l := by
  intro n
  induction n with
  | zero =>
    intro l hl
    have : l = [] := List.length_eq_zero.1 (Nat.le_zero.1 hl)
    subst this
    exact GluedWS.single []
  | succ n ih =>
    intro l hl
    cases l with
    | nil => exact GluedWS.single []
    | cons c r =>
      rw [splitParas_cons]
      by_cases hc : (c == '\n' && r.head?.any (· == '\n')) = true
      · rw [if_pos hc]
        have hcnl : c = '\n' := by
          have h2 := hc
          rw [Bool.and_eq_true] at h2
          exact eq_of_beq h2.1
        have hsep : ∀ d ∈ c :: r.takeWhile (· == '\n'), isPySpace d = true := by
          intro d hd
          rcases List.mem_cons.1 hd with h | h
          · rw [h, hcnl]
            rfl
          · have := List.mem_takeWhile_imp h
            rw [eq_of_beq this]
            rfl
        have hrec : GluedWS (splitParas (r.dropWhile (· == '\n')))
            (r.dropWhile (· == '\n')) := by
          apply ih
          have := (List.dropWhile_sublist (l := r) (p := (· == '\n'))).length_le
          simp only [List.length_cons] at hl
          omega
        have h := GluedWS.cons [] (c :: r.takeWhile (· == '\n'))
          (splitParas (r.dropWhile (· == '\n'))) (r.dropWhile (· == '\n'))
          (by simp) hsep hrec
        rw [List.nil_append, List.cons_append, List.takeWhile_append_dropWhile] at h
        exact h
      · rw [if_neg hc]
        have hrec : GluedWS (splitParas r) r := by
          apply ih
          simp only [List.length_cons] at hl
          omega
        cases hsp : splitParas r with
        | nil => exact absurd hsp (splitParasGo_ne_nil _ _)
        | cons p ps =>
          rw [hsp] at hrec
          exact GluedWS_cons_left c p ps r hrec

theorem glued_splitParas (l : List Char) : GluedWS (splitParas l) l :=
  glued_splitParas_aux l.length l le_rfl

theorem glued_splitSents_aux :
    ∀ (n : Nat) (b : Bool) (l : List Char), l.length ≤ n →
      GluedWS (splitSentsFrom b l) l := by
  intro n
  induction n with
  | zero =>
    intro b l hl
    have : l = [] := List.length_eq_zero.1 (Nat.le_zero.1 hl)
    subst this
    exact GluedWS.single []
  | succ n ih =>
    intro b l hl
    cases l with
    | nil => exact GluedWS.single []
    | cons c r =>
      rw [splitSentsFrom_cons]
      by_cases hc : (isPySpace c && b) = true
      · rw [if_pos hc]
        have hcws : isPySpace c = true := by
          have h2 := hc
          rw [Bool.and_eq_true] at h2
          exact h2.1
        have hsep : ∀ d ∈ c :: r.takeWhile isPySpace, isPySpace d = true := by
          intro d hd
          rcases List.mem_cons.1 hd with h | h
          · rw [h]
            exact hcws
          · exact List.mem_takeWhile_imp h
        have hrec : GluedWS (splitSentsFrom false (r.dropWhile isPySpace))
            (r.dropWhile isPySpace) := by
          apply ih
          have := (List.dropWhile_sublist (l := r) (p := isPySpace)).length_le
          simp only [List.length_cons] at hl
          omega
        have h := GluedWS.cons [] (c :: r.takeWhile isPySpace)
          (splitSentsFrom false (r.dropWhile isPySpace)) (r.dropWhile isPySpace)
          (by simp) hsep hrec
        rw [List.nil_append, List.cons_append, List.takeWhile_append_dropWhile] at h
        exact h
      · rw [if_neg hc]
        have hrec : GluedWS (splitSentsFrom (c == '.' || c == '!' || c == '?') r) r := by
          apply ih
          simp only [List.length_cons] at hl
          omega
        cases hsp : splitSentsFrom (c == '.' || c == '!' || c == '?') r with
        | nil => exact absurd hsp (splitSentsGo_ne_nil _ _ _)
        | cons p ps =>
          rw [hsp] at hrec
          exact GluedWS_cons_left c p ps r hrec

theorem glued_splitSents (l : List Char) : GluedWS (splitSents l) l :=
  glued_splitSents_aux l.length false l le_rfl

theorem glued_tokens {ps : List (List Char)} {l : List Char} (h : GluedWS ps l) :
    (ps.map pyTokens).flatten = pyTokens l := by
  induction h with
  | single p => simp
  | cons p sep ps2 rest hne hws _ ih =>
    rw [List.map_cons, List.flatten_cons, ih, pyTokens_glue sep hne hws p rest]

theorem drop_take_piece (sent : List Char) (cs co j : Nat) :
    ((sent.drop j).take cs).drop co = (sent.drop (j + co)).take (cs - co) := by
  rw [List.drop_take cs co (sent.drop j), List.drop_drop]

theorem hardTail_flatten (sent : List Char) (cs co step : Nat)
    (hstep : step = cs - co) :
    ∀ (n i : Nat),
      ((List.range' i n step).map (fun j => ((sent.drop j).take cs).drop co)).flatten =
        (sent.drop (i + co)).take (n * step) := by
  intro n
  induction n with
  | zero =>
    intro i
    simp
  | succ n ih =>
    intro i
    rw [List.range'_succ, List.map_cons, List.flatten_cons,
      drop_take_piece sent cs co i, ih (i + step)]
    rw [show (n + 1) * step = step + n * step by ring, List.take_add]
    rw [← hstep]
    congr 1
    rw [List.drop_drop, show i + co + step = i + step + co by omega]

theorem hardSplit_head_tail (sent : List Char) (cs co m : Nat)
    (hstep0 : 0 < cs - co)
    (hm : (sent.length + (cs - co) - 1) / (cs - co) = m + 1) :
    hardSplit sent cs co =
      sent.take cs ::
        (List.range' (cs - co) m (cs - co)).map (fun j => (sent.drop j).take cs) := by
  unfold hardSplit
  dsimp only
  rw [if_neg (Nat.pos_iff_ne_zero.1 hstep0), hm, List.range'_succ, List.map_cons,
    List.drop_zero, Nat.zero_add]

theorem hardSplitT_stripped (sent : List Char) (cs co : Nat) (hco : co < cs)
    (hne : sent ≠ []) :
    ((hardSplitT sent cs co).map (stripContrib co)).flatten = ' ' :: sent := by
  have hstep0 : 0 < cs - co := by omega
  have hlen0 : 0 < sent.length := List.length_pos.2 hne
  have hcount1 : 1 ≤ (sent.length + (cs - co) - 1) / (cs - co) := by
    rw [Nat.le_div_iff_mul_le hstep0]
    omega
  have hdm := Nat.div_add_mod (sent.length + (cs - co) - 1) (cs - co)
  have hmod := Nat.mod_lt (sent.length + (cs - co) - 1) hstep0
  set q := (sent.length + (cs - co) - 1) / (cs - co) with hqdef
  have hhs := hardSplit_head_tail sent cs co (q - 1) hstep0 (by omega)
  rw [hardSplitT, hhs]
  rw [List.map_cons, List.map_map, List.map_map]
  have hmapeq : (stripContrib co ∘ fun q => (q, Tag.hardCont)) ∘
      (fun j => (sent.drop j).take cs) = fun j => ((sent.drop j).take cs).drop co := rfl
  rw [hmapeq]
  rw [List.flatten_cons]
  rw [hardTail_flatten sent cs co (cs - co) rfl _ (cs - co)]
  show (' ' :: sent.take cs) ++ _ = _
  rw [List.cons_append]
  congr 1
  rw [show (cs - co) + co = cs by omega]
  rw [← List.take_add]
  apply List.take_of_length_le
  have hmul : (cs - co) * q = (cs - co) * (q - 1) + (cs - co) := by
    have hq : q = (q - 1) + 1 := by omega
    conv_lhs => rw [hq]
    rw [Nat.mul_add, Nat.mul_one]
  have hexp : (q - 1) * (cs - co) = (cs - co) * (q - 1) := Nat.mul_comm ..
  rw [hexp]
  omega

theorem overlapStripped_append (co : Nat) (a b : List (List Char × Tag)) :
    overlapStripped co (a ++ b) = overlapStripped co a ++ overlapStripped co b := by
  unfold overlapStripped
  rw [List.map_append, List.flatten_append]

theorem overlapStripped_plain (co : Nat) (s : List Char) :
    overlapStripped co [(s, Tag.plain)] = ' ' :: s := by
  unfold overlapStripped stripContrib
  simp

theorem flush_tokens (co : Nat) (st : List (List Char × Tag) × List Char) :
    pyTokens (overlapStripped co
      (if st.2.isEmpty then st.1 else st.1 ++ [(st.2, Tag.plain)])) = tokState co st := by
  unfold tokState
  by_cases h : st.2.isEmpty = true
  · rw [if_pos h, List.isEmpty_iff.1 h, pyTokens_nil, List.append_nil]
  · rw [if_neg h, overlapStripped_append, overlapStripped_plain,
      pyTokens_sep1 ' ' rfl]

theorem tokState_sentStep (cs co : Nat) (hco : co < cs)
    (st : List (List Char × Tag) × List Char) (sent : List Char) :
    tokState co (sentStep cs co st sent) = tokState co st ++ pyTokens sent := by
  unfold sentStep
  by_cases hfit : st.2.length + sent.length + 1 ≤ cs
  · rw [if_pos hfit]
    unfold tokState
    by_cases hcur : st.2.isEmpty = true
    · rw [if_pos hcur]
      rw [List.isEmpty_iff.1 hcur, pyTokens_nil, List.append_nil]
    · rw [if_neg hcur]
      rw [pyTokens_sep1 ' ' rfl st.2 sent, ← List.append_assoc]
  · rw [if_neg hfit]
    by_cases hbig : cs < sent.length
    · rw [if_pos hbig]
      have hne : sent ≠ [] := by
        intro h
        rw [h] at hbig
        simp at hbig
      have hhard : overlapStripped co (hardSplitT sent cs co) = ' ' :: sent :=
        hardSplitT_stripped sent cs co hco hne
      conv_lhs => rw [tokState]
      dsimp only
      rw [overlapStripped_append, hhard,
        pyTokens_sep1 ' ' rfl, pyTokens_nil, List.append_nil, flush_tokens co st]
    · rw [if_neg hbig]
      conv_lhs => rw [tokState]
      dsimp only
      rw [flush_tokens co st]

theorem tokState_sentFold (cs co : Nat) (hco : co < cs) :
    ∀ (l : List (List Char)) (st : List (List Char × Tag) × List Char),
      tokState co (l.foldl (sentStep cs co) st) =
        tokState co st ++ (l.map pyTokens).flatten := by
  intro l
  induction l with
  | nil =>
    intro st
    simp
  | cons x l ih =>
    intro st
    rw [List.foldl_cons, ih (sentStep cs co st x), tokState_sentStep cs co hco st x]
    simp [List.append_assoc]

theorem tokState_paraStep (cs co : Nat) (hco : co < cs)
    (st : List (List Char × Tag) × List Char) (para0 : List Char) :
    tokState co (paraStep cs co st para0) = tokState co st ++ pyTokens para0 := by
  have hpt : pyTokens (pyStrip para0) = pyTokens para0 := pyTokens_pyStrip para0
  unfold paraStep
  dsimp only
  by_cases hemp : (pyStrip para0).isEmpty = true
  · rw [if_pos hemp, ← hpt, List.isEmpty_iff.1 hemp, pyTokens_nil, List.append_nil]
  · rw [if_neg hemp]
    by_cases hfit : st.2.length + (pyStrip para0).length + 2 ≤ cs
    · rw [if_pos hfit]
      unfold tokState
      by_cases hcur : st.2.isEmpty = true
      · rw [if_pos hcur]
        rw [List.isEmpty_iff.1 hcur, pyTokens_nil, List.append_nil, hpt]
      · rw [if_neg hcur]
        rw [pyTokens_sep1 '\n' rfl st.2 ('\n' :: pyStrip para0),
          pyTokens_ws_cons '\n' _ rfl, hpt, ← List.append_assoc]
    · rw [if_neg hfit]
      by_cases hbig : cs < (pyStrip para0).length
      · rw [if_pos hbig]
        rw [tokState_sentFold cs co hco]
        rw [glued_tokens (glued_splitSents (pyStrip para0)), hpt]
        conv_lhs => rw [tokState]
        dsimp only
        rw [pyTokens_nil, List.append_nil, flush_tokens co st]
      · rw [if_neg hbig]
        conv_lhs => rw [tokState]
        dsimp only
        rw [flush_tokens co st, hpt]

theorem tokState_paraFold (cs co : Nat) (hco : co < cs) :
    ∀ (l : List (List Char)) (st : List (List Char × Tag) × List Char),
      tokState co (l.foldl (paraStep cs co) st) =
        tokState co st ++ (l.map pyTokens).flatten := by
  intro l
  induction l with
  | nil =>
    intro st
    simp
  | cons x l ih =>
    intro st
    rw [List.foldl_cons, ih (paraStep cs co st x), tokState_paraStep cs co hco st x]
    simp [List.append_assoc]

theorem chunkCore_tokens (text : List Char) (cs co : Nat) (hco : co < cs) :
    pyTokens (overlapStripped co (chunkTextCore text cs co)) = pyTokens text := by
  unfold chunkTextCore
  dsimp only
  rw [flush_tokens co ((splitParas text).foldl (paraStep cs co) ([], []))]
  rw [tokState_paraFold cs co hco (splitParas text) ([], [])]
  rw [glued_tokens (glued_splitParas text)]
  rfl

/-- C2 counterexample: the claim as stated has no parameter restriction, but
for `chunk_overlap > chunk_size` the hard-split step `chunk_size -
chunk_overlap` is negative, Python's `range` is silently empty, and every
over-long sentence is dropped entirely: `chunk_text("aaaaaa", 5, 10)` returns
`[]` although the input has a non-whitespace token — content is lost. -/
theorem chunk_coverage_counterexample :
    chunk_text ("aaaaaa".data) 5 10 = [] ∧ pyTokens ("aaaaaa".data) ≠ [] := by
  constructor
  · decide
  · decide

/-- C2 amended: for `chunk_overlap < chunk_size`, concatenating the raw chunk
sequence with the injected overlap stripped (`overlapStripped`: a space before
each plain chunk and each first hard piece, a continuation hard piece minus
its first `chunk_overlap` re-read characters) reproduces exactly the token
sequence of the input; the returned chunks are `[]` for whitespace-only input
(which has no tokens), the whole input for short input, and the raw chunks
with the overlap pass applied otherwise. -/
theorem chunk_coverage_amended (text : List Char) (cs co : Nat) (hco : co < cs) :
    pyTokens (overlapStripped co (chunkTextCore text cs co)) = pyTokens text ∧
    ((pyStrip text).isEmpty = true → pyTokens text = [] ∧ chunk_text text cs co = []) ∧
    (¬ (pyStrip text).isEmpty = true → text.length ≤ cs →
      chunk_text text cs co = [text]) ∧
    (¬ (pyStrip text).isEmpty = true → ¬ text.length ≤ cs →
      chunk_text text cs co =
        (applyOverlap co (chunkTextCore text cs co)).map (fun p => p.1)) := by
  refine ⟨chunkCore_tokens text cs co hco,
    fun h => ⟨pyTokens_nil_of_strip_empty text h, ?_⟩, fun h1 h2 => ?_, fun h1 h2 => ?_⟩
  · unfold chunk_text chunkTextTagged
    rw [if_pos h]
    rfl
  · unfold chunk_text chunkTextTagged
    rw [if_neg h1, if_pos h2]
    rfl
  · unfold chunk_text chunkTextTagged
    rw [if_neg h1, if_neg h2]

theorem chunk_coverage_amended_witness :
    2 < 6 ∧
    pyTokens (overlapStripped 2 (chunkTextCore ("aaaa\n\nbbbb".data) 6 2)) =
      pyTokens ("aaaa\n\nbbbb".data) :=
  ⟨by decide, (chunk_coverage_amended ("aaaa\n\nbbbb".data) 6 2 (by decide)).1⟩

end DocsRag
